import Mathlib

/-!
Verification of the RBX binary extractor (`rbxl_extractor`) against its
natural-language specification.

The development is a shallow embedding of the Python sources:

* `rbx_binary_parser.py` — `BinaryReader` primitives, the chunk codec and
  the `RBXBinaryParser` token loop;
* `binary_extractor.py` — the heuristic scavenger and script canonicalizer.

Conventions of the embedding:

* A byte buffer is a `List Nat` (entries are byte values `< 256`).
* A Python `str` is represented by its list of Unicode code points
  (`List Nat`).
* Reads are explicit state passing over `(data, pos)`; a Python exception
  is an `Except.error` carrying the error kind together with the reader
  position at the moment of the raise (Python mutates `self.pos` before
  raising, and callers that catch the exception observe that position).
* The external compression library (`gzip.decompress`, `zlib.decompress`,
  `zlib.decompress(·, -15)`) is threaded through as a record `Decomps` of
  partial functions; concrete witnesses instantiate it with a faithful
  model of raw DEFLATE restricted to stored blocks.
-/

namespace RBX

/-- Error kinds corresponding to the Python exceptions raised by the parser:
`EOFError`, `ValueError` (bad magic), `UnicodeDecodeError`, `KeyError` and
`ValueError` (bad rotation id). -/
inductive PErr where
  | eof
  | badMagic
  | decode
  | key
  | value
deriving Repr, DecidableEq

/-- Result of a primitive read: either a value together with the position
after the read, or an error together with the position at the raise. -/
abbrev RRes (α : Type) := Except (PErr × Nat) (α × Nat)

/-- `BinaryReader._read`: consume `size` bytes or raise `EOFError` when
`pos + size > len(data)` (the position is unchanged on error). -/
def readFixed (data : List Nat) (pos size : Nat) : RRes (List Nat) :=
  if pos + size ≤ data.length then .ok ((data.drop pos).take size, pos + size)
  else .error (.eof, pos)

/-- `BinaryReader.read_byte`. -/
def readByte (data : List Nat) (pos : Nat) : RRes Nat :=
  match readFixed data pos 1 with
  | .ok (bs, p) => .ok (bs.getD 0 0, p)
  | .error e => .error e

/-- Little-endian value of a byte list. -/
def leNat (bs : List Nat) : Nat :=
  bs.foldr (fun b acc => b + 256 * acc) 0

/-- Two's-complement reading of a `w`-bit unsigned value. -/
def toSignedW (w v : Nat) : Int :=
  if v < 2 ^ (w - 1) then (v : Int) else (v : Int) - 2 ^ w

/-- `BinaryReader.read_u32` (`struct` format `"<I"`). -/
def readU32 (data : List Nat) (pos : Nat) : RRes Nat :=
  match readFixed data pos 4 with
  | .ok (bs, p) => .ok (leNat bs, p)
  | .error e => .error e

/-- `BinaryReader.read_i32` (`struct` format `"<i"`). -/
def readI32 (data : List Nat) (pos : Nat) : RRes Int :=
  match readFixed data pos 4 with
  | .ok (bs, p) => .ok (toSignedW 32 (leNat bs), p)
  | .error e => .error e

/-- Loop body of `BinaryReader.read_varint`.  The loop consumes at least
one byte per iteration, so any `fuel` exceeding the remaining length makes
the `fuel = 0` branch unreachable; the wrapper `readVarint` supplies such
fuel. -/
def readVarintF : Nat → List Nat → Nat → Nat → Nat → RRes Nat
  | 0, _, pos, _, _ => .error (.eof, pos)
  | fuel + 1, data, pos, shift, acc =>
    if pos < data.length then
      let b := data.getD pos 0
      let acc' := acc ||| ((b &&& 0x7F) <<< shift)
      if b &&& 0x80 = 0 then .ok (acc', pos + 1)
      else readVarintF fuel data (pos + 1) (shift + 7) acc'
    else .error (.eof, pos)

/-- `BinaryReader.read_varint`: little-endian base-128 with continuation
bit.  The accumulator and shift are explicit loop state; note the source
imposes no bound on `shift`. -/
def readVarint (data : List Nat) (pos shift acc : Nat) : RRes Nat :=
  readVarintF (data.length + 1) data pos shift acc

end RBX

namespace RBX

/-! ### UTF-8

Python's `bytes.decode('utf-8')` is strict RFC 3629 decoding; the variant
with `errors='ignore'` drops ill-formed bytes.  `utf8CharTail?` parses one
character given its first byte `b` and the remaining bytes `t`, returning
the code point and the number of continuation bytes consumed. -/

/-- A UTF-8 continuation byte. -/
def isCont (b : Nat) : Bool := 0x80 ≤ b ∧ b ≤ 0xBF

/-- Admissible first continuation byte of a three-byte sequence
(excludes overlong forms and surrogates, as CPython does). -/
def cont1ok3 (b c1 : Nat) : Bool :=
  if b = 0xE0 then 0xA0 ≤ c1 ∧ c1 ≤ 0xBF
  else if b = 0xED then 0x80 ≤ c1 ∧ c1 ≤ 0x9F
  else isCont c1

/-- Admissible first continuation byte of a four-byte sequence
(excludes overlong forms and code points beyond U+10FFFF). -/
def cont1ok4 (b c1 : Nat) : Bool :=
  if b = 0xF0 then 0x90 ≤ c1 ∧ c1 ≤ 0xBF
  else if b = 0xF4 then 0x80 ≤ c1 ∧ c1 ≤ 0x8F
  else isCont c1

/-- Parse one UTF-8 character from first byte `b` and tail `t`:
code point and number of continuation bytes consumed, or `none` when the
sequence is ill-formed at this position. -/
def utf8CharTail? (b : Nat) (t : List Nat) : Option (Nat × Nat) :=
  if b < 0x80 then some (b, 0)
  else if 0xC2 ≤ b ∧ b ≤ 0xDF then
    match t with
    | c1 :: _ =>
      if isCont c1 then some (((b - 0xC0) <<< 6) ||| (c1 - 0x80), 1) else none
    | [] => none
  else if 0xE0 ≤ b ∧ b ≤ 0xEF then
    match t with
    | c1 :: c2 :: _ =>
      if cont1ok3 b c1 ∧ isCont c2 then
        some ((((b - 0xE0) <<< 12) ||| ((c1 - 0x80) <<< 6)) ||| (c2 - 0x80), 2)
      else none
    | _ => none
  else if 0xF0 ≤ b ∧ b ≤ 0xF4 then
    match t with
    | c1 :: c2 :: c3 :: _ =>
      if cont1ok4 b c1 ∧ isCont c2 ∧ isCont c3 then
        some (((((b - 0xF0) <<< 18) ||| ((c1 - 0x80) <<< 12)) |||
                ((c2 - 0x80) <<< 6)) ||| (c3 - 0x80), 3)
      else none
    | _ => none
  else none

/-- Fuelled strict UTF-8 decoding; each step consumes at least one byte,
so fuel exceeding the list length is always sufficient. -/
def utf8DecodeF : Nat → List Nat → Option (List Nat)
  | _, [] => some []
  | 0, _ :: _ => none
  | fuel + 1, b :: t =>
    match utf8CharTail? b t with
    | some (c, k) => (utf8DecodeF fuel (t.drop k)).map (c :: ·)
    | none => none

/-- Strict UTF-8 decoding to code points (`bytes.decode('utf-8')`);
`none` models `UnicodeDecodeError`. -/
def utf8Decode (l : List Nat) : Option (List Nat) :=
  utf8DecodeF (l.length + 1) l

/-- Fuelled lossy UTF-8 decoding. -/
def utf8DecodeIgnoreF : Nat → List Nat → List Nat
  | _, [] => []
  | 0, _ :: _ => []
  | fuel + 1, b :: t =>
    match utf8CharTail? b t with
    | some (c, k) => c :: utf8DecodeIgnoreF fuel (t.drop k)
    | none => utf8DecodeIgnoreF fuel t

/-- Lossy UTF-8 decoding (`bytes.decode('utf-8', errors='ignore')`):
ill-formed bytes are dropped.  Skipping one byte at a time is extensionally
the same as CPython's skipping of the reported error range, because every
byte inside such a range is itself ill-formed as a sequence start. -/
def utf8DecodeIgnore (l : List Nat) : List Nat :=
  utf8DecodeIgnoreF (l.length + 1) l

/-- Decode UTF-8, falling back to Latin-1 on failure
(`try: b.decode('utf-8') except: b.decode('latin-1')`); under Latin-1 every
byte is its own code point. -/
def decodeUtf8OrLatin1 (bs : List Nat) : List Nat :=
  match utf8Decode bs with
  | some cs => cs
  | none => bs

/-- `BinaryReader.read_string`: varint length `L`; empty when `L = 0`;
otherwise take the next `L` bytes (a Python slice, which truncates at the
end of the buffer), advance the position by `L` unconditionally, and decode
them as strict UTF-8 — raising `UnicodeDecodeError` on ill-formed bytes. -/
def readString (data : List Nat) (pos : Nat) : RRes (List Nat) :=
  match readVarint data pos 0 0 with
  | .error e => .error e
  | .ok (len, p1) =>
    if len = 0 then .ok ([], p1)
    else
      match utf8Decode ((data.drop p1).take len) with
      | some cs => .ok (cs, p1 + len)
      | none => .error (.decode, p1 + len)

/-- `BinaryReader.read_interleaved`: read `count * width` bytes laid out as
`width` columns of `count` bytes and reassemble row-major.  The Python body
writes `result[j*width+i] = data[i*count+j]`; indexing past the (truncated)
slice raises `IndexError`, modelled as `none`. -/
def read_interleaved (data : List Nat) (pos count width : Nat) :
    Option (List Nat × Nat) :=
  if count = 0 ∨ width = 0 then some ([], pos)
  else
    let total := count * width
    let d := (data.drop pos).take total
    if d.length < total then none
    else
      some ((List.range count).flatMap
              (fun j => (List.range width).map (fun i => d.getD (i * count + j) 0)),
            pos + total)

/-- Modelled from the spec: the column-major interleave encoding of an
`N×W` byte matrix (`W` consecutive columns of `N` bytes each, §P2 and the
glossary).  The repository contains no write-side encoder; this definition
follows the spec's words and is only used to state the round-trip law. -/
def interleave (width : Nat) (M : List (List Nat)) : List Nat :=
  (List.range width).flatMap (fun i => M.map (fun row => row.getD i 0))

/-- A run of `k` continuation bytes `0x80` followed by a terminator byte `1`
drives the varint loop through `k + 1` iterations, accumulating
`1 <<< (shift + 7k)`; no iteration bound is applied. -/
theorem readVarintF_cont_run (k : Nat) :
    ∀ (fuel pos shift acc : Nat) (data : List Nat),
      k < fuel →
      (∀ i, i < k → data.getD (pos + i) 0 = 0x80) →
      data.getD (pos + k) 0 = 1 →
      pos + k < data.length →
      readVarintF fuel data pos shift acc =
        .ok (acc ||| (1 <<< (shift + 7 * k)), pos + k + 1) := by
  induction k with
  | zero =>
    intro fuel pos shift acc data hf hc ht hl
    obtain ⟨f, rfl⟩ : ∃ f, fuel = f + 1 := ⟨fuel - 1, by omega⟩
    have hp : pos < data.length := by omega
    have hb : data[pos] = 1 := by
      simpa [List.getD_eq_getElem?_getD, List.getElem?_eq_getElem hp] using ht
    simp [readVarintF, hp, hb]
  | succ k ih =>
    intro fuel pos shift acc data hf hc ht hl
    obtain ⟨f, rfl⟩ : ∃ f, fuel = f + 1 := ⟨fuel - 1, by omega⟩
    have hp : pos < data.length := by omega
    have hb : data[pos] = 0x80 := by
      have h0 := hc 0 (by omega)
      simpa [List.getD_eq_getElem?_getD, List.getElem?_eq_getElem hp] using h0
    have hrec := ih f (pos + 1) (shift + 7) acc data (by omega)
      (fun i hi => by
        have := hc (i + 1) (by omega)
        simpa [show pos + (i + 1) = pos + 1 + i by omega] using this)
      (by simpa [show pos + (k + 1) = pos + 1 + k by omega] using ht)
      (by omega)
    have hexp : shift + 7 + 7 * k = shift + 7 * (k + 1) := by ring
    have hpos : pos + 1 + k + 1 = pos + (k + 1) + 1 := by ring
    rw [hexp, hpos] at hrec
    simpa [readVarintF, hb, hp, show (128 : Nat) &&& 127 = 0 from rfl,
      Nat.zero_shiftLeft, Nat.or_zero] using hrec

/-- C2 (amended): `read_varint` imposes no shift bound at all.  A run of
`k` continuation bytes `0x80` followed by the byte `1` is accepted for
every `k`, returning `2^(7k)` — in particular values of 64 bits and more —
and there is no `Overflow` error in the implementation. -/
theorem c2_read_varint_no_shift_bound (k pos : Nat) (data : List Nat)
    (hcont : ∀ i, i < k → data.getD (pos + i) 0 = 0x80)
    (hterm : data.getD (pos + k) 0 = 1)
    (hlen : pos + k < data.length) :
    readVarint data pos 0 0 = .ok (1 <<< (7 * k), pos + k + 1) := by
  have h := readVarintF_cont_run k (data.length + 1) pos 0 0 data (by omega)
    hcont hterm hlen
  simpa [readVarint] using h

/-- Witness for C2's amended theorem at `k = 10`: an 11-byte varint is
accepted and produces `2^70 ≥ 2^64`. -/
theorem c2_read_varint_no_shift_bound_witness :
    readVarint (List.replicate 10 0x80 ++ [1]) 0 0 0 = .ok (1 <<< (7 * 10), 11) ∧
      2 ^ 64 ≤ 1 <<< (7 * 10) := by
  refine ⟨?_, by norm_num [Nat.one_shiftLeft]⟩
  have h := c2_read_varint_no_shift_bound 10 0 (List.replicate 10 0x80 ++ [1])
    (by decide) (by decide) (by decide)
  simpa using h

/-- C2 counterexample: on ten continuation bytes followed by `1`,
`read_varint` happily assembles 71 bits of payload and returns `2^70`
without any `Overflow` failure, refuting the claimed 64-bit cap. -/
theorem c2_counterexample :
    readVarint (List.replicate 10 0x80 ++ [1]) 0 0 0 = .ok (2 ^ 70, 11) ∧
      2 ^ 64 < 2 ^ 70 :=
  ⟨by rfl, by norm_num⟩

/-- C3 (amended): `read_string` reads a varint length `L`; when `L = 0` it
returns the empty string; otherwise it takes the next `L` bytes (a Python
slice, truncated at the buffer end), advances past them, and decodes them
as STRICT UTF-8 — returning the code points when well-formed and raising
`UnicodeDecodeError` when not.  No lossy replacement is performed. -/
theorem c3_read_string_strict (data : List Nat) (pos L p1 : Nat)
    (hv : readVarint data pos 0 0 = .ok (L, p1)) :
    (L = 0 → readString data pos = .ok ([], p1)) ∧
    (∀ cs, L ≠ 0 → utf8Decode ((data.drop p1).take L) = some cs →
        readString data pos = .ok (cs, p1 + L)) ∧
    (L ≠ 0 → utf8Decode ((data.drop p1).take L) = none →
        readString data pos = .error (.decode, p1 + L)) := by
  refine ⟨fun h0 => ?_, fun cs hL hd => ?_, fun hL hd => ?_⟩ <;>
    simp [readString, hv, *]

/-- Witness for C3's amended theorem: the two-byte UTF-8 sequence
`C3 A9` decodes strictly to the single code point `U+00E9`. -/
theorem c3_read_string_strict_witness :
    readString [2, 0xC3, 0xA9] 0 = .ok ([0xE9], 3) := by
  have h := c3_read_string_strict [2, 0xC3, 0xA9] 0 2 1 (by rfl)
  exact h.2.1 [0xE9] (by decide) (by rfl)

/-- C3 counterexample: on input `[1, FF]`, `read_string` reads length 1 and
then strict-decodes the lone byte `FF`, which is ill-formed UTF-8; the read
raises `UnicodeDecodeError` instead of replacing the byte lossily, refuting
the claim that `read_string` never fails on encoding alone. -/
theorem c3_counterexample :
    readString [1, 0xFF] 0 = .error (.decode, 2) := by rfl

/-- Indexing a `flatMap` whose blocks all have length `c`: position
`i * c + j` falls in block `i` at offset `j`. -/
theorem flatMap_getD_const (c : Nat) :
    ∀ (l : List Nat) (g : Nat → List Nat),
      (∀ x ∈ l, (g x).length = c) →
      ∀ i j, i < l.length → j < c →
        (l.flatMap g).getD (i * c + j) 0 = (g (l.getD i 0)).getD j 0 := by
  intro l
  induction l with
  | nil => intro g hg i j hi hj; simp at hi
  | cons a t ih =>
    intro g hg i j hi hj
    have hga : (g a).length = c := hg a (List.mem_cons_self a t)
    rw [List.flatMap_cons]
    cases i with
    | zero =>
      rw [Nat.zero_mul, Nat.zero_add,
        List.getD_append _ _ _ j (by rw [hga]; exact hj)]
      rfl
    | succ i =>
      have hidx : (i + 1) * c + j = c + (i * c + j) := by ring
      rw [hidx, List.getD_append_right _ _ _ _ (by rw [hga]; omega)]
      rw [show c + (i * c + j) - (g a).length = i * c + j by rw [hga]; omega]
      rw [List.getD_cons_succ]
      exact ih g (fun x hx => hg x (List.mem_cons_of_mem a hx)) i j
        (by simpa using hi) hj

/-- Reading a list back by positions through `getD` is the identity. -/
theorem range_map_getD (row : List Nat) :
    (List.range row.length).map (fun i => row.getD i 0) = row := by
  induction row with
  | nil => simp
  | cons a t ih =>
    rw [List.length_cons, List.range_succ_eq_map, List.map_cons, List.map_map]
    have : (fun i => (a :: t).getD i 0) ∘ Nat.succ = fun i => t.getD i 0 := rfl
    rw [this, ih]
    rfl

/-- Concatenating the rows of a matrix by index recovers its flattening. -/
theorem flatten_eq_range_flatMap (M : List (List Nat)) :
    (List.range M.length).flatMap (fun j => M.getD j []) = M.flatten := by
  induction M with
  | nil => simp
  | cons r t ih =>
    rw [List.length_cons, List.range_succ_eq_map, List.flatMap_cons,
      List.flatMap_map, List.flatten_cons]
    have : (fun a => (r :: t).getD (Nat.succ a) []) = fun j => t.getD j [] := rfl
    rw [this, ih]
    rfl

/-- The interleave encoding of a `count × width` matrix has
`width * count` bytes. -/
theorem interleave_length (width : Nat) (M : List (List Nat)) :
    (interleave width M).length = width * M.length := by
  rw [interleave, List.length_flatMap]
  have : List.map (List.length ∘ fun i => M.map fun row => row.getD i 0)
      (List.range width) = List.replicate width M.length := by
    rw [List.eq_replicate_iff]
    refine ⟨by simp, fun b hb => ?_⟩
    simp only [List.mem_map] at hb
    obtain ⟨i, _, rfl⟩ := hb
    simp
  rw [this, List.sum_replicate, smul_eq_mul]

/-- C7: for every `count`, `width` and every `count × width` byte matrix
`M`, `read_interleaved count width` applied to the column-major
interleaving of `M` succeeds and returns exactly the row-major bytes of
`M`, consuming `count * width` bytes: the reader inverts the interleave
encoding. -/
theorem c7_read_interleaved_roundtrip (count width : Nat) (M : List (List Nat))
    (hM : M.length = count) (hrow : ∀ row ∈ M, row.length = width) :
    read_interleaved (interleave width M) 0 count width =
      some (M.flatten, count * width) := by
  by_cases h0 : count = 0 ∨ width = 0
  · have hfl : M.flatten = [] := by
      rcases h0 with h | h
      · rw [List.length_eq_zero.mp (hM.trans h)]; rfl
      · exact List.flatten_eq_nil_iff.mpr fun l hl =>
          List.length_eq_zero.mp ((hrow l hl).trans h)
    have hcw : count * width = 0 := by rcases h0 with h | h <;> simp [h]
    simp [read_interleaved, h0, hfl, hcw]
  · push_neg at h0
    have hlen : (interleave width M).length = width * count := by
      rw [interleave_length, hM]
    have hd : ((interleave width M).drop 0).take (count * width) =
        interleave width M := by
      rw [List.drop_zero, List.take_of_length_le (by rw [hlen]; ring_nf; omega)]
    have hcell : ∀ i j, i < width → j < count →
        (interleave width M).getD (i * count + j) 0 =
          (M.getD j []).getD i 0 := by
      intro i j hi hj
      rw [interleave]
      have h1 := flatMap_getD_const count (List.range width)
        (fun i => M.map fun row => row.getD i 0)
        (by intro x _; simp [hM]) i j (by simpa using hi) hj
      rw [h1]
      have hri : (List.range width).getD i 0 = i := by
        rw [List.getD_eq_getElem?_getD, List.getElem?_range hi]; rfl
      rw [hri]
      exact List.getD_map M [] (fun row => row.getD i 0)
  -- assemble the row-major result
    have hinner : ∀ j ∈ List.range count,
        (List.range width).map
            (fun i => (((interleave width M).drop 0).take (count * width)).getD
              (i * count + j) 0) =
          M.getD j [] := by
      intro j hj
      rw [List.mem_range] at hj
      have hrowj : M.getD j [] ∈ M := by
        rw [List.getD_eq_getElem?_getD,
          List.getElem?_eq_getElem (by omega : j < M.length)]
        exact List.getElem_mem _
      have hw : (M.getD j []).length = width := hrow _ hrowj
      calc (List.range width).map
              (fun i => (((interleave width M).drop 0).take (count * width)).getD
                (i * count + j) 0)
          = (List.range width).map (fun i => (M.getD j []).getD i 0) := by
            refine List.map_congr_left fun i hi => ?_
            rw [hd]
            exact hcell i j (List.mem_range.mp hi) hj
        _ = M.getD j [] := by rw [← hw]; exact range_map_getD _
    simp only [read_interleaved]
    rw [if_neg (by rintro (h | h); exacts [h0.1 h, h0.2 h])]
    rw [if_neg (by rw [hd, hlen, Nat.mul_comm width count]; omega)]
    rw [List.flatMap_congr hinner, Nat.zero_add, ← hM, flatten_eq_range_flatMap]

/-- Witness for C7 at the concrete matrix `[[1,2],[3,4]]`: its interleave
`[1,3,2,4]` reads back to `[1,2,3,4]`. -/
theorem c7_read_interleaved_roundtrip_witness :
    read_interleaved (interleave 2 [[1, 2], [3, 4]]) 0 2 2 =
      some ([1, 2, 3, 4], 4) := by
  have h := c7_read_interleaved_roundtrip 2 2 [[1, 2], [3, 4]] (by decide)
    (by decide)
  simpa using h

/-! ### Parser data model

`RBXBinaryParser` state: the instance map is an insertion-ordered
dictionary (Python `dict` keyed by `str(ref)`; integer referents are kept
as `Int`, on which `str` is injective).  Property values are the tagged
variants built by `_read_property`; Python floats carry their raw wire
bytes (no claim inspects float arithmetic). -/

/-- A decoded property value as built by `_read_property`. -/
inductive PValue where
  | str (cs : List Nat)
  | boolV (b : Bool)
  | intV (n : Int)
  | f32 (bs : List Nat)
  | f64 (bs : List Nat)
  | fLit (one : Bool)
  | chan (b : Nat)
  | listV (vs : List PValue)
  | pairV (a b : PValue)
  | instRef (r : Option Int)
deriving Repr

/-- An `Instance` dataclass value. -/
structure PInstance where
  class_id : Nat
  class_name : List Nat
  referent : Int
  properties : List (List Nat × PValue)
  children : List Int
deriving Repr

/-- The mutable `RBXBinaryParser` state threaded through chunk handling. -/
structure PState where
  instances : List (Int × PInstance)
  root : Option Int
  classNames : List (List Nat)
  sharedStrings : List (List Nat)
deriving Repr

/-- Insertion-ordered dictionary lookup (first match; keys are unique by
construction of `alInsert`). -/
def alGet {κ ν : Type} [DecidableEq κ] : List (κ × ν) → κ → Option ν
  | [], _ => none
  | (k, v) :: t, key => if k = key then some v else alGet t key

/-- Python-`dict` assignment: update in place when the key exists
(preserving its position), append otherwise. -/
def alInsert {κ ν : Type} [DecidableEq κ] : List (κ × ν) → κ → ν → List (κ × ν)
  | [], key, val => [(key, val)]
  | (k, v) :: t, key, val =>
    if k = key then (key, val) :: t else (k, v) :: alInsert t key val

/-- Apply `f` to the value stored at `key`, if present. -/
def alUpdate {κ ν : Type} [DecidableEq κ] (f : ν → ν) :
    List (κ × ν) → κ → List (κ × ν)
  | [], _ => []
  | (k, v) :: t, key =>
    if k = key then (k, f v) :: t else (k, v) :: alUpdate f t key

/-- Code points of a string literal. -/
def strCp (s : String) : List Nat := s.toList.map Char.toNat

/-- Decimal digits of a natural number, as code points. -/
def natCp (n : Nat) : List Nat := (toString n).toList.map Char.toNat

/-- The external decompression library, threaded as explicit partial
functions: `gzip.decompress`, `zlib.decompress` (zlib wrapper) and
`zlib.decompress(·, -15)` (raw DEFLATE). -/
structure Decomps where
  gz : List Nat → Option (List Nat)
  zl : List Nat → Option (List Nat)
  raw : List Nat → Option (List Nat)

/-- Sequencing of primitive reads. -/
def rbind {α β : Type} (x : RRes α) (f : α → Nat → RRes β) : RRes β :=
  match x with
  | .error e => .error e
  | .ok (a, p) => f a p

/-- Map over the value of a read. -/
def rmap {α β : Type} (f : α → β) (x : RRes α) : RRes β :=
  match x with
  | .error e => .error e
  | .ok (a, p) => .ok (f a, p)

/-- Lift a primitive read into a chunk handler: a raised exception aborts
with the state accumulated so far (`st`). -/
def bindR {α β : Type} (st : PState) (x : RRes α)
    (f : α → Nat → Except (PErr × PState) β) : Except (PErr × PState) β :=
  match x with
  | .error (e, _) => .error (e, st)
  | .ok (a, p) => f a p

/-- Read `n` values with a primitive reader (a Python list comprehension:
the first raised exception propagates). -/
def readN {α : Type} (f : Nat → RRes α) : Nat → Nat → RRes (List α)
  | 0, pos => .ok ([], pos)
  | n + 1, pos =>
    match f pos with
    | .error e => .error e
    | .ok (a, p) =>
      match readN f n p with
      | .error e => .error e
      | .ok (as, p') => .ok (a :: as, p')

/-- Read and discard `n` length-prefixed strings (service markers). -/
def skipStrings (data : List Nat) : Nat → Nat → RRes Unit
  | 0, pos => .ok ((), pos)
  | n + 1, pos =>
    match readString data pos with
    | .error e => .error e
    | .ok (_, p) => skipStrings data n p

end RBX

namespace RBX

/-! ### Property value readers (`_read_property` branches) -/

/-- `read_bool`: `bool(read_byte())`. -/
def readBoolV (data : List Nat) (p : Nat) : RRes PValue :=
  rmap (fun b => PValue.boolV (b != 0)) (readByte data p)

/-- One `f32` (raw wire bytes retained). -/
def readF32V (data : List Nat) (p : Nat) : RRes PValue :=
  rmap PValue.f32 (readFixed data p 4)

/-- One `f64` (raw wire bytes retained). -/
def readF64V (data : List Nat) (p : Nat) : RRes PValue :=
  rmap PValue.f64 (readFixed data p 8)

/-- Two consecutive `f32`s (`Vector2`, `NumberRange`). -/
def readF32Pair (data : List Nat) (p : Nat) : RRes PValue :=
  rbind (readF32V data p) fun x p =>
  rbind (readF32V data p) fun y p =>
  .ok (.listV [x, y], p)

/-- Three consecutive `f32`s (`Vector3`, `Color3`, `PhysicalProperties`). -/
def readF32Triple (data : List Nat) (p : Nat) : RRes PValue :=
  rbind (readF32V data p) fun x p =>
  rbind (readF32V data p) fun y p =>
  rbind (readF32V data p) fun z p =>
  .ok (.listV [x, y, z], p)

/-- Four consecutive `f32`s (`Rect`). -/
def readF32Quad (data : List Nat) (p : Nat) : RRes PValue :=
  rbind (readF32V data p) fun a p =>
  rbind (readF32V data p) fun b p =>
  rbind (readF32V data p) fun c p =>
  rbind (readF32V data p) fun d p =>
  .ok (.listV [a, b, c, d], p)

/-- `Color3uint8`: three channel bytes, each recorded as `b / 255.0`. -/
def readColor3U8 (data : List Nat) (p : Nat) : RRes PValue :=
  rbind (readByte data p) fun r p =>
  rbind (readByte data p) fun g p =>
  rbind (readByte data p) fun b p =>
  .ok (.listV [.chan r, .chan g, .chan b], p)

/-- `UDim`: an `f32` scale and an `i32` offset. -/
def readUDim (data : List Nat) (p : Nat) : RRes PValue :=
  rbind (readF32V data p) fun s p =>
  rbind (readI32 data p) fun o p =>
  .ok (.listV [s, .intV o], p)

/-- `UDim2`: two `UDim`s. -/
def readUDim2 (data : List Nat) (p : Nat) : RRes PValue :=
  rbind (readUDim data p) fun a p =>
  rbind (readUDim data p) fun b p =>
  .ok (.listV [a, b], p)

/-- Little-endian signed value of an up-to-`k`-byte slice
(`int.from_bytes(…, 'little', signed=True)`; the empty slice is `0`). -/
def leSigned (bs : List Nat) : Int :=
  if bs.length = 0 then 0 else toSignedW (8 * bs.length) (leNat bs)

/-- `Vector2int16`: two 2-byte slices read without bounds checks
(Python slices truncate; the position advances by 2 regardless). -/
def readV2I16 (data : List Nat) (p : Nat) : RRes PValue :=
  let a := leSigned ((data.drop p).take 2)
  let b := leSigned ((data.drop (p + 2)).take 2)
  .ok (.listV [.intV a, .intV b], p + 4)

/-- The identity rotation matrix returned for basic-rotation ids `1..36`
(literal floats `1.0` / `0.0` in the source). -/
def identityRot : List PValue :=
  [.fLit true, .fLit false, .fLit false,
   .fLit false, .fLit true, .fLit false,
   .fLit false, .fLit false, .fLit true]

/-- `read_rotation_matrix`: id byte `0` means nine raw floats; `1..36` is
a table lookup (identity fallback); anything else raises `ValueError`. -/
def readRotationMatrix (data : List Nat) (p : Nat) : RRes (List PValue) :=
  rbind (readByte data p) fun id p1 =>
  if id = 0 then readN (readF32V data) 9 p1
  else if 1 ≤ id ∧ id ≤ 36 then .ok (identityRot, p1)
  else .error (.value, p1)

/-- `read_cframe`: position triple then rotation matrix. -/
def readCFrame (data : List Nat) (p : Nat) : RRes PValue :=
  rbind (readF32V data p) fun x p =>
  rbind (readF32V data p) fun y p =>
  rbind (readF32V data p) fun z p =>
  rbind (readRotationMatrix data p) fun rot p =>
  .ok (.pairV (.listV [x, y, z]) (.listV rot), p)

/-- `Int64`: two `u32` halves combined and sign-extended. -/
def readInt64 (data : List Nat) (p : Nat) : RRes PValue :=
  rbind (readU32 data p) fun lo p =>
  rbind (readU32 data p) fun hi p =>
  .ok (.intV (toSignedW 64 ((hi <<< 32) ||| lo)), p)

/-- `SharedString`: a varint index resolved against the shared-string
table, or a visible placeholder when out of range. -/
def readSharedString (st : PState) (data : List Nat) (p : Nat) : RRes PValue :=
  rbind (readVarint data p 0 0) fun idx p1 =>
  if idx < st.sharedStrings.length then
    .ok (.str (st.sharedStrings.getD idx []), p1)
  else
    .ok (.str (strCp "<shared_string_index:" ++ natCp idx ++ strCp ">"), p1)

/-- `ProtectedString` decompression heuristics: when the payload starts
with the zlib magic `78 9C`, zlib-decompress it, and only if that raises
try raw DEFLATE; a payload NOT starting with `78 9C` is used as-is
(the `except` arms can only run when the `if` body raised). -/
def protectedTransform (D : Decomps) (content : List Nat) : List Nat :=
  if content.take 2 = [0x78, 0x9C] then
    match D.zl content with
    | some d => d
    | none =>
      match D.raw content with
      | some d => d
      | none => content
  else content

/-- One `ProtectedString` value: `u32` length, that many bytes (slice,
position advanced unconditionally), decompression heuristics, then UTF-8
with Latin-1 fallback. -/
def readProtectedOne (D : Decomps) (data : List Nat) (p : Nat) : RRes PValue :=
  rbind (readU32 data p) fun len p1 =>
  let content := (data.drop p1).take len
  .ok (.str (decodeUtf8OrLatin1 (protectedTransform D content)), p1 + len)

/-- The placeholder recorded when unknown-tag recovery fails. -/
def unknownPlaceholder : List Nat := strCp "<unknown>"

/-- Per-element fallback of unknown-tag recovery: for each of `n` values
try a `u32` length and a plausible payload, else record the placeholder;
every exception is caught inside the loop, so it always yields `n`
values. -/
def fallbackPerElem (data : List Nat) : Nat → Nat → (List PValue × Nat)
  | 0, pos => ([], pos)
  | n + 1, pos =>
    match readU32 data pos with
    | .error (_, p) =>
      let r := fallbackPerElem data n p
      (.str unknownPlaceholder :: r.1, r.2)
    | .ok (l, p1) =>
      if l ≠ 0 ∧ p1 + l ≤ data.length then
        let r := fallbackPerElem data n (p1 + l)
        (.str (decodeUtf8OrLatin1 ((data.drop p1).take l)) :: r.1, r.2)
      else
        let r := fallbackPerElem data n p1
        (.str unknownPlaceholder :: r.1, r.2)

/-- Unknown-tag recovery (`_read_property`'s `else` arm): try one varint
length shared by all `count` values (the length is a nonnegative varint,
so only the overrun check can fail); on failure fall back per element.
Total: it never raises. -/
def readUnknownValues (data : List Nat) (pos count : Nat) :
    (List PValue × Nat) :=
  match readVarint data pos 0 0 with
  | .ok (len, p1) =>
    if p1 + len ≤ data.length then
      (List.replicate count (.str (decodeUtf8OrLatin1 ((data.drop p1).take len))),
       p1 + len)
    else fallbackPerElem data count p1
  | .error (_, perr) => fallbackPerElem data count perr

/-- The value-type tags with a dedicated decoder in `_read_property`;
every other tag takes the unknown-tag recovery path. -/
def handledTags : List Nat :=
  [1, 2, 3, 4, 5, 14, 13, 12, 25, 11, 7, 6, 15, 16, 22, 23, 24, 26, 18, 27, 19]

/-- Dispatch on the value-type tag, reading `count` values. -/
def readValues (D : Decomps) (data : List Nat) (st : PState)
    (vt count pos : Nat) : RRes (List PValue) :=
  if vt = 1 then readN (fun p => rmap PValue.str (readString data p)) count pos
  else if vt = 2 then readN (readBoolV data) count pos
  else if vt = 3 then readN (fun p => rmap PValue.intV (readI32 data p)) count pos
  else if vt = 4 then readN (readF32V data) count pos
  else if vt = 5 then readN (readF64V data) count pos
  else if vt = 14 then readN (readF32Triple data) count pos
  else if vt = 13 then readN (readF32Pair data) count pos
  else if vt = 12 then readN (readF32Triple data) count pos
  else if vt = 25 then readN (readColor3U8 data) count pos
  else if vt = 11 then readN (fun p => rmap PValue.intV (readI32 data p)) count pos
  else if vt = 7 then readN (readUDim data) count pos
  else if vt = 6 then readN (readUDim2 data) count pos
  else if vt = 15 then readN (readV2I16 data) count pos
  else if vt = 16 then readN (readCFrame data) count pos
  else if vt = 22 then readN (readF32Pair data) count pos
  else if vt = 23 then readN (readF32Quad data) count pos
  else if vt = 24 then readN (readF32Triple data) count pos
  else if vt = 26 then readN (readInt64 data) count pos
  else if vt = 18 then
    rbind (readN (fun p => readI32 data p) count pos) fun refs p =>
    .ok (refs.map (fun r =>
      PValue.instRef (if (alGet st.instances r).isSome then some r else none)), p)
  else if vt = 27 then readN (readSharedString st data) count pos
  else if vt = 19 then readN (readProtectedOne D data) count pos
  else
    let r := readUnknownValues data pos count
    .ok (r.1, r.2)

end RBX

namespace RBX

/-! ### Token handlers and the parse loops -/

/-- Register one `Instance` per referent (insertion order preserved). -/
def mkInstances (class_id : Nat) (class_name : List Nat) :
    PState → List Int → PState
  | st, [] => st
  | st, r :: rs =>
    mkInstances class_id class_name
      { st with instances :=
          (alInsert st.instances r ⟨class_id, class_name, r, [], []⟩) } rs

/-- `_read_instance`: class id, class name (table or inline), optional
service markers, then the referent list, registering one instance each. -/
def readInstance (data : List Nat) (pos : Nat) (st : PState) :
    Except (PErr × PState) (PState × Nat) :=
  bindR st (readVarint data pos 0 0) fun class_id p1 =>
  bindR st
    (if st.classNames ≠ [] ∧ class_id < st.classNames.length then
       .ok (st.classNames.getD class_id [], p1)
     else readString data p1) fun class_name p2 =>
  bindR st (readByte data p2) fun flag p3 =>
  bindR st
    (if flag ≠ 0 then
       rbind (readU32 data p3) fun m p4 => skipStrings data m p4
     else .ok ((), p3)) fun _ p5 =>
  bindR st (readU32 data p5) fun count p6 =>
  bindR st (readN (fun p => readI32 data p) count p6) fun refs p7 =>
  .ok (mkInstances class_id class_name st refs, p7)

/-- Store value `v` under property `pname` on the instance keyed `r`. -/
def setProp (st : PState) (r : Int) (pname : List Nat) (v : PValue) : PState :=
  { st with instances :=
      (alUpdate (fun i => { i with properties := alInsert i.properties pname v })
        st.instances r) }

/-- Assign the decoded values positionally to the matched instances
(`zip` stops at the shorter list). -/
def assignAll (pname : List Nat) :
    PState → List (Int × PInstance) → List PValue → PState
  | st, (r, _) :: ms, v :: vs => assignAll pname (setProp st r pname v) ms vs
  | st, _, _ => st

/-- `_read_property`: class id, property name, value-type tag; when no
registered instance has that class id, return at once (the value payload
is left unread); otherwise decode `count` values and assign them. -/
def readProperty (D : Decomps) (data : List Nat) (pos : Nat) (st : PState) :
    Except (PErr × PState) (PState × Nat) :=
  bindR st (readVarint data pos 0 0) fun class_id p1 =>
  bindR st (readString data p1) fun pname p2 =>
  bindR st (readByte data p2) fun vt p3 =>
  let matched := st.instances.filter (fun ri => ri.2.class_id = class_id)
  if matched.length = 0 then .ok (st, p3)
  else
    bindR st (readValues D data st vt matched.length p3) fun values p4 =>
    .ok (assignAll pname st matched values, p4)

/-- Append `c` to the children list of the instance stored at `p`. -/
def appendChild (st : PState) (p c : Int) : PState :=
  { st with instances :=
      (alUpdate (fun i => { i with children := i.children ++ [c] }) st.instances p) }

/-- The `PRNT` linking loop over `(child, parent)` pairs: parent `-1`
marks the child as root; otherwise both referents are looked up with
`dict[...]`, raising `KeyError` — which aborts the remaining pairs,
keeping the links already made. -/
def linkPairs : PState → List (Int × Int) → Except (PErr × PState) PState
  | st, [] => .ok st
  | st, (c, p) :: rest =>
    if p = -1 then
      match alGet st.instances c with
      | some _ => linkPairs { st with root := some c } rest
      | none => .error (.key, st)
    else
      match alGet st.instances p with
      | none => .error (.key, st)
      | some _ =>
        match alGet st.instances c with
        | none => .error (.key, st)
        | some _ => linkPairs (appendChild st p c) rest

/-- `_read_parent`: version byte, count, `count` child referents then
`count` parent referents, then the linking loop. -/
def readParent (data : List Nat) (pos : Nat) (st : PState) :
    Except (PErr × PState) (PState × Nat) :=
  bindR st (readByte data pos) fun _version p1 =>
  bindR st (readU32 data p1) fun count p2 =>
  bindR st (readN (fun p => readI32 data p) count p2) fun children p3 =>
  bindR st (readN (fun p => readI32 data p) count p3) fun parents p4 =>
  match linkPairs st (children.zip parents) with
  | .ok st' => .ok (st', p4)
  | .error e => .error e

/-- Token dispatch loop inside one chunk payload: read tokens until the
payload is exhausted, an `END` (4) or unknown token, or a raised error
(which aborts the chunk, keeping the state mutated so far). -/
def tokenLoop (D : Decomps) (chunk : List Nat) : Nat → Nat → PState → PState
  | 0, _, st => st
  | fuel + 1, pos, st =>
    if pos < chunk.length then
      match readByte chunk pos with
      | .error _ => st
      | .ok (token, p1) =>
        if token = 1 then
          match readInstance chunk p1 st with
          | .ok (st', p2) => tokenLoop D chunk fuel p2 st'
          | .error (_, st') => st'
        else if token = 2 then
          match readProperty D chunk p1 st with
          | .ok (st', p2) => tokenLoop D chunk fuel p2 st'
          | .error (_, st') => st'
        else if token = 3 then
          match readParent chunk p1 st with
          | .ok (st', p2) => tokenLoop D chunk fuel p2 st'
          | .error (_, st') => st'
        else st
    else st

/-- `_read_chunk` decompression cascade after the gzip attempt:
zlib wrapper, then raw DEFLATE, then raw DEFLATE from offset 2, then the
raw payload unchanged. -/
def decompressTail (D : Decomps) (c : List Nat) : List Nat :=
  match D.zl c with
  | some d => d
  | none =>
    match D.raw c with
    | some d => d
    | none =>
      if 2 < c.length then
        match D.raw (c.drop 2) with
        | some d => d
        | none => c
      else c

/-- The full decompression cascade of `_read_chunk`: gzip is attempted
only when the payload starts with `1F 8B`. -/
def decompressChunk (D : Decomps) (c : List Nat) : List Nat :=
  if c.take 2 = [0x1F, 0x8B] then
    match D.gz c with
    | some d => d
    | none => decompressTail D c
  else decompressTail D c

/-- `_read_chunk`: `u32` length (zero terminates), `u32` reserved, clamp
against the remaining input (over-long chunks yield `None`), then the
decompression cascade. -/
def readChunk (D : Decomps) (data : List Nat) (pos : Nat) :
    RRes (Option (List Nat)) :=
  rbind (readU32 data pos) fun chunkLen p1 =>
  if chunkLen = 0 then .ok (none, p1)
  else
    rbind (readU32 data p1) fun _reserved p2 =>
    if chunkLen > data.length - p2 then .ok (none, p2)
    else
      .ok (some (decompressChunk D ((data.drop p2).take chunkLen)), p2 + chunkLen)

/-- The chunk loop of `parse`: any exception from `_read_chunk` or a
`None` chunk stops the loop; each payload is processed by the token loop
with a fresh reader. -/
def chunkLoop (D : Decomps) (data : List Nat) : Nat → Nat → PState → PState
  | 0, _, st => st
  | fuel + 1, pos, st =>
    match readChunk D data pos with
    | .error _ => st
    | .ok (none, _) => st
    | .ok (some chunk, p1) =>
      chunkLoop D data fuel p1 (tokenLoop D chunk (chunk.length + 1) 0 st)

/-- The eight magic bytes `<roblox!`. -/
def MAGIC : List Nat := strCp "<roblox!"

/-- `_verify_magic`: compare the first eight bytes against the magic
(a short buffer yields a short slice, hence `ValueError`), then read the
version byte, the class-count varint and the compressed flag. -/
def verifyMagic (data : List Nat) : RRes (Nat × Nat × Bool) :=
  if data.take 8 = MAGIC then
    rbind (readByte data 8) fun version p1 =>
    rbind (readVarint data p1 0 0) fun numClasses p2 =>
    rbind (readByte data p2) fun flag p3 =>
    .ok ((version, numClasses, flag != 0), p3)
  else .error (.badMagic, 0)

/-- The class-table read of `parse`: `n` length-prefixed strings inside a
`try`; on any failure the table is abandoned (`none`) and the reader is
left at the position of the raise. -/
def readClassTable (data : List Nat) : Nat → Nat → (Option (List (List Nat)) × Nat)
  | 0, pos => (some [], pos)
  | n + 1, pos =>
    match readString data pos with
    | .error (_, p) => (none, p)
    | .ok (s, p) =>
      match readClassTable data n p with
      | (some ss, p') => (some (s :: ss), p')
      | (none, p') => (none, p')

/-- The value returned by `RBXBinaryParser.parse`. -/
structure ParseResult where
  version : Nat
  compressed : Bool
  instances : List (Int × PInstance)
  root : Option Int
deriving Repr

/-- `RBXBinaryParser.parse`: header (the only uncaught error exit), the
guarded class-table read, then the chunk loop; everything after the
header is exception-safe by construction of the loops. -/
def parse (D : Decomps) (data : List Nat) : Except PErr ParseResult :=
  match verifyMagic data with
  | .error (e, _) => .error e
  | .ok ((version, numClasses, compressed), p0) =>
    let tbl :=
      if numClasses ≠ 0 then
        match readClassTable data numClasses p0 with
        | (some ns, p) => (ns, p)
        | (none, p) => (([] : List (List Nat)), p)
      else ([], p0)
    let st0 : PState := ⟨[], none, tbl.1, []⟩
    let stF := chunkLoop D data (data.length + 1) tbl.2 st0
    .ok ⟨version, compressed, stF.instances, stF.root⟩

/-- A decompressor model that always fails (every chunk is passed through
raw); used to instantiate witnesses whose inputs are not compressed. -/
def noneD : Decomps := ⟨fun _ => none, fun _ => none, fun _ => none⟩

end RBX

namespace RBX

/-! ### Prefix stability of the header reads (for C1) -/

/-- A successful varint read strictly advances the position. -/
theorem readVarintF_pos_lt :
    ∀ (fuel : Nat) (data : List Nat) (pos shift acc v p' : Nat),
      readVarintF fuel data pos shift acc = .ok (v, p') → pos < p' := by
  intro fuel
  induction fuel with
  | zero => intro data pos shift acc v p' h; simp [readVarintF] at h
  | succ f ih =>
    intro data pos shift acc v p' h
    by_cases hp : pos < data.length
    · simp only [readVarintF, if_pos hp] at h
      by_cases hb : data.getD pos 0 &&& 0x80 = 0
      · rw [if_pos hb] at h
        cases h
        omega
      · rw [if_neg hb] at h
        have := ih data (pos + 1) (shift + 7) _ v p' h
        omega
    · simp [readVarintF, hp] at h

/-- A successful varint read ends within the buffer. -/
theorem readVarintF_le_length :
    ∀ (fuel : Nat) (data : List Nat) (pos shift acc v p' : Nat),
      readVarintF fuel data pos shift acc = .ok (v, p') → p' ≤ data.length := by
  intro fuel
  induction fuel with
  | zero => intro data pos shift acc v p' h; simp [readVarintF] at h
  | succ f ih =>
    intro data pos shift acc v p' h
    by_cases hp : pos < data.length
    · simp only [readVarintF, if_pos hp] at h
      by_cases hb : data.getD pos 0 &&& 0x80 = 0
      · rw [if_pos hb] at h
        cases h
        omega
      · rw [if_neg hb] at h
        exact ih data (pos + 1) (shift + 7) _ v p' h
    · simp [readVarintF, hp] at h

/-- Bytes below index `k` agree between `data` and `data.take k`. -/
theorem getD_take_eq (data : List Nat) (k i : Nat) (h : i < k) :
    (data.take k).getD i 0 = data.getD i 0 := by
  rw [List.getD_eq_getElem?_getD, List.getD_eq_getElem?_getD,
    List.getElem?_take_of_lt h]

/-- A fixed-size read that ends before `k` also succeeds on the prefix
`data.take k`, with the same bytes and final position. -/
theorem readFixed_onTake (data : List Nat) (k pos size : Nat) (bs : List Nat)
    (p' : Nat) (h : readFixed data pos size = .ok (bs, p')) (hk : p' ≤ k) :
    readFixed (data.take k) pos size = .ok (bs, p') := by
  unfold readFixed at h ⊢
  by_cases hc : pos + size ≤ data.length
  · rw [if_pos hc] at h
    cases h
    rw [if_pos (by simp [List.length_take]; omega)]
    congr 2
    rw [List.drop_take, List.take_take,
      Nat.min_eq_left (by omega : size ≤ k - pos)]
  · simp [hc] at h

/-- `read_byte` on a prefix. -/
theorem readByte_onTake (data : List Nat) (k pos b p' : Nat)
    (h : readByte data pos = .ok (b, p')) (hk : p' ≤ k) :
    readByte (data.take k) pos = .ok (b, p') := by
  unfold readByte at h ⊢
  cases hf : readFixed data pos 1 with
  | error e => rw [hf] at h; cases h
  | ok r =>
    rw [hf] at h
    cases h
    rw [readFixed_onTake data k pos 1 r.1 r.2 hf hk]

/-- `read_varint` on a prefix: the loop only inspects bytes strictly
before its final position. -/
theorem readVarintF_onTake :
    ∀ (fuel : Nat) (data : List Nat) (pos shift acc v p' k f' : Nat),
      readVarintF fuel data pos shift acc = .ok (v, p') → p' ≤ k →
      p' - pos ≤ f' →
      readVarintF f' (data.take k) pos shift acc = .ok (v, p') := by
  intro fuel
  induction fuel with
  | zero => intro data pos shift acc v p' k f' h; simp [readVarintF] at h
  | succ f ih =>
    intro data pos shift acc v p' k f' h hk hf
    have hlt := readVarintF_pos_lt (f + 1) data pos shift acc v p' h
    by_cases hp : pos < data.length
    · simp only [readVarintF, if_pos hp] at h
      obtain ⟨g, rfl⟩ : ∃ g, f' = g + 1 := ⟨f' - 1, by omega⟩
      have hpk : pos < (data.take k).length := by
        simp [List.length_take]; omega
      have hbyte : (data.take k).getD pos 0 = data.getD pos 0 :=
        getD_take_eq data k pos (by omega)
      by_cases hb : data.getD pos 0 &&& 0x80 = 0
      · rw [if_pos hb] at h
        cases h
        simp only [readVarintF, if_pos hpk, hbyte, if_pos hb]
      · rw [if_neg hb] at h
        have hlt2 := readVarintF_pos_lt f data (pos + 1) (shift + 7) _ v p' h
        have := ih data (pos + 1) (shift + 7) _ v p' k g h hk (by omega)
        simp only [readVarintF, if_pos hpk, hbyte, if_neg hb]
        exact this
    · simp [readVarintF, hp] at h

/-- Wrapper form of varint prefix stability. -/
theorem readVarint_onTake (data : List Nat) (pos shift acc v p' k : Nat)
    (h : readVarint data pos shift acc = .ok (v, p')) (hk : p' ≤ k) :
    readVarint (data.take k) pos shift acc = .ok (v, p') := by
  unfold readVarint at h ⊢
  have hle := readVarintF_le_length (data.length + 1) data pos shift acc v p' h
  exact readVarintF_onTake (data.length + 1) data pos shift acc v p' k
    ((data.take k).length + 1) h hk (by simp [List.length_take]; omega)

/-- `read_string` on a prefix. -/
theorem readString_onTake (data : List Nat) (pos : Nat) (cs : List Nat)
    (p' k : Nat) (h : readString data pos = .ok (cs, p')) (hk : p' ≤ k) :
    readString (data.take k) pos = .ok (cs, p') := by
  unfold readString at h ⊢
  cases hv : readVarint data pos 0 0 with
  | error e => rw [hv] at h; cases h
  | ok r =>
    obtain ⟨len, p1⟩ := r
    rw [hv] at h
    dsimp only at h
    have hp1 := readVarintF_pos_lt (data.length + 1) data pos 0 0 len p1 hv
    by_cases hlen : len = 0
    · rw [if_pos hlen] at h
      cases h
      rw [readVarint_onTake data pos 0 0 len p' k hv hk]
      dsimp only
      rw [if_pos hlen]
    · rw [if_neg hlen] at h
      cases hd : utf8Decode ((data.drop p1).take len) with
      | none => rw [hd] at h; cases h
      | some cs' =>
        rw [hd] at h
        cases h
        have hslice : ((data.take k).drop p1).take len =
            (data.drop p1).take len := by
          rw [List.drop_take, List.take_take,
            Nat.min_eq_left (by omega : len ≤ k - p1)]
        rw [readVarint_onTake data pos 0 0 len p1 k hv (by omega)]
        dsimp only
        rw [if_neg hlen, hslice, hd]

/-- `_verify_magic` on a prefix that contains the whole header. -/
theorem verifyMagic_onTake (data : List Nat) (hdr : Nat × Nat × Bool)
    (p0 k : Nat) (h : verifyMagic data = .ok (hdr, p0)) (hk : p0 ≤ k) :
    verifyMagic (data.take k) = .ok (hdr, p0) := by
  unfold verifyMagic at h ⊢
  by_cases hm : data.take 8 = MAGIC
  · rw [if_pos hm] at h
    simp only [rbind] at h
    cases hb1 : readByte data 8 with
    | error e => rw [hb1] at h; cases h
    | ok r1 =>
      obtain ⟨version, p1⟩ := r1
      rw [hb1] at h
      dsimp only at h
      cases hv : readVarint data p1 0 0 with
      | error e => rw [hv] at h; cases h
      | ok r2 =>
        obtain ⟨numClasses, p2⟩ := r2
        rw [hv] at h
        dsimp only at h
        cases hb2 : readByte data p2 with
        | error e => rw [hb2] at h; cases h
        | ok r3 =>
          obtain ⟨flag, p3⟩ := r3
          rw [hb2] at h
          dsimp only at h
          cases h
          have h9 : p1 = 9 := by
            unfold readByte readFixed at hb1
            by_cases hc : 8 + 1 ≤ data.length
            · rw [if_pos hc] at hb1; cases hb1; rfl
            · simp [hc] at hb1
          have hp2 : p1 < p2 :=
            readVarintF_pos_lt (data.length + 1) data p1 0 0 numClasses p2 hv
          have hp3 : p2 < p0 := by
            unfold readByte readFixed at hb2
            by_cases hc : p2 + 1 ≤ data.length
            · rw [if_pos hc] at hb2; cases hb2; omega
            · simp [hc] at hb2
          have hm' : (data.take k).take 8 = MAGIC := by
            rw [List.take_take, Nat.min_eq_left (by omega : (8 : Nat) ≤ k)]
            exact hm
          rw [if_pos hm']
          simp only [rbind]
          rw [readByte_onTake data k 8 version p1 hb1 (by omega)]
          dsimp only
          rw [readVarint_onTake data p1 0 0 numClasses p2 k hv (by omega)]
          dsimp only
          rw [readByte_onTake data k p2 flag p0 hb2 (by omega)]
  · rw [if_neg hm] at h; cases h

/-- C1 (amended): `parse` terminates without raising on `B[..k]` exactly
when the prefix still contains the complete header (magic, version byte,
class-count varint, compressed flag): for any such `k` — and any behaviour
of the decompression library — `parse` returns a result; truncations that
cut into the header raise (`ValueError` on short magic, `EOFError`
otherwise), as the header is the only uncaught error exit of `parse`. -/
theorem c1_parse_total_on_header_prefixes (D : Decomps) (B : List Nat)
    (k : Nat) (hdr : Nat × Nat × Bool) (p0 : Nat)
    (h : verifyMagic B = .ok (hdr, p0)) (hk : p0 ≤ k) :
    ∃ r, parse D (B.take k) = .ok r := by
  obtain ⟨version, numClasses, compressed⟩ := hdr
  have h2 := verifyMagic_onTake B (version, numClasses, compressed) p0 k h hk
  unfold parse
  rw [h2]
  exact ⟨_, rfl⟩

/-- The minimal valid binary file of spec scenario 2: magic, version 0,
class count 0, compressed flag 0, then a zero `u32` chunk terminator. -/
def c1B : List Nat := strCp "<roblox!" ++ [0, 0, 0] ++ [0, 0, 0, 0]

/-- Witness for C1's amended theorem: the 12-byte prefix of `c1B` keeps
the full 11-byte header, and `parse` returns a result on it. -/
theorem c1_parse_total_on_header_prefixes_witness :
    ∃ r, parse noneD (c1B.take 12) = .ok r :=
  c1_parse_total_on_header_prefixes noneD c1B 12 (0, 0, false) 11
    (by rfl) (by omega)

/-- C1 counterexample: `c1B` is a valid input (`parse` succeeds on it),
yet its 9-byte truncation — which cuts the header after the version
byte — makes `parse` raise `EOFError` instead of returning an instance
map, refuting truncation safety as claimed for every `k < len(B)`. -/
theorem c1_counterexample :
    parse noneD c1B = .ok ⟨0, false, [], none⟩ ∧
    9 < c1B.length ∧
    parse noneD (c1B.take 9) = .error .eof :=
  ⟨by rfl, by decide, by rfl⟩

end RBX

namespace RBX

/-! ### C4: PRNT edges with missing referents -/

/-- C4 (amended): when a `(child, parent)` pair of a `PRNT` token names a
referent missing from the instance map, the `dict` lookup raises
`KeyError` at that pair: the remaining pairs of the same token are NOT
processed, the state keeps exactly the links made by the earlier pairs,
and the exception aborts the rest of the current chunk (the token loop
catches it; later chunks are still processed).  Edges are not dropped
silently one at a time. -/
theorem c4_prnt_missing_referent_aborts (st : PState) (c p : Int)
    (rest : List (Int × Int)) :
    (p ≠ -1 → alGet st.instances p = none →
      linkPairs st ((c, p) :: rest) = .error (.key, st)) ∧
    (p = -1 → alGet st.instances c = none →
      linkPairs st ((c, p) :: rest) = .error (.key, st)) := by
  constructor <;> intro h1 h2 <;> simp [linkPairs, h1, h2]

/-- Instance map containing only referent `0` (class id 5). -/
def c4st : PState := ⟨[(0, ⟨5, [], 0, [], []⟩)], none, [], []⟩

/-- Witness for C4's amended theorem: with referent `5` absent, the pair
list `[(0, 5), (0, -1)]` aborts at its first pair. -/
theorem c4_prnt_missing_referent_aborts_witness :
    linkPairs c4st [((0 : Int), (5 : Int)), (0, -1)] = .error (.key, c4st) :=
  (c4_prnt_missing_referent_aborts c4st 0 5 [(0, -1)]).1
    (by decide) (by rfl)

/-- A `PRNT` body: version 0, count 2, children `[0, 0]`, parents
`[5, -1]`. -/
def c4prnt : List Nat :=
  [0] ++ [2, 0, 0, 0] ++ [0, 0, 0, 0] ++ [0, 0, 0, 0] ++
    [5, 0, 0, 0] ++ [255, 255, 255, 255]

/-- C4 counterexample: the claim predicts that the pair `(0, 5)` (parent
`5` missing) is dropped and processing continues with `(0, -1)`, which
would mark instance `0` as root.  The code instead raises `KeyError` on
the first pair and never processes the second: `_read_parent` errors and
the root stays unset. -/
theorem c4_counterexample :
    readParent c4prnt 0 c4st = .error (.key, c4st) ∧ c4st.root = none :=
  ⟨by rfl, by rfl⟩

/-! ### C10: PROP tokens whose class id matches no instance -/

/-- C10: when no registered instance has the class id of a `PROP` token,
`_read_property` consumes exactly the class-id varint, the property-name
string and the value-type byte, then returns with the state untouched and
the reader parked at the first byte of the (unread) value payload. -/
theorem c10_prop_no_matching_instance (D : Decomps) (data : List Nat)
    (pos p1 p2 p3 cid vt : Nat) (pname : List Nat) (st : PState)
    (h1 : readVarint data pos 0 0 = .ok (cid, p1))
    (h2 : readString data p1 = .ok (pname, p2))
    (h3 : readByte data p2 = .ok (vt, p3))
    (hnone : ∀ ri ∈ st.instances, ri.2.class_id ≠ cid) :
    readProperty D data pos st = .ok (st, p3) := by
  have hf : st.instances.filter (fun ri => ri.2.class_id = cid) = [] := by
    rw [List.filter_eq_nil_iff]
    intro a ha
    simpa using hnone a ha
  simp [readProperty, bindR, h1, h2, h3, hf]

/-- Instance map for the C10 witness (single instance of class id 5). -/
def c10st : PState := ⟨[(0, ⟨5, [], 0, [], []⟩)], none, [], []⟩

/-- Witness for C10: a `PROP` body with class id 3 (matching nothing),
empty property name and tag byte 8 returns the state unchanged with the
position after the three reads. -/
theorem c10_prop_no_matching_instance_witness :
    readProperty noneD [3, 0, 8] 0 c10st = .ok (c10st, 3) :=
  c10_prop_no_matching_instance noneD [3, 0, 8] 0 1 2 3 3 8 [] c10st
    (by rfl) (by rfl) (by rfl) (by decide)

end RBX

namespace RBX

/-! ### C5: ProtectedString decoding -/

/-- Modelled from the spec (§4.3.2): the decompression order the spec
ascribes to ProtectedString payloads — zlib when the bytes start with
`78 9C`, OTHERWISE raw DEFLATE, otherwise the bytes as-is.  Stated only to
compare against `protectedTransform`, the translation of the source. -/
def protectedTransformSpec (D : Decomps) (content : List Nat) : List Nat :=
  if content.take 2 = [0x78, 0x9C] then
    match D.zl content with
    | some d => d
    | none => content
  else
    match D.raw content with
    | some d => d
    | none => content

/-- Model of raw-DEFLATE decompression (`zlib.decompress(·, -15)`)
restricted to a single final stored block (`BFINAL = 1`, `BTYPE = 00`,
`LEN`/`NLEN` complements, exactly `LEN` payload bytes): on such streams it
agrees with zlib; it is conservatively `none` elsewhere. -/
def inflateRawStored : List Nat → Option (List Nat)
  | b0 :: l0 :: l1 :: n0 :: n1 :: rest =>
    if b0 = 1 ∧ l0 + n0 = 255 ∧ l1 + n1 = 255 ∧ rest.length = l0 + 256 * l1
    then some rest else none
  | _ => none

/-- Decompressors for the C5 counterexample: gzip and zlib fail (the
payload has neither the `1F 8B` magic nor a valid zlib header byte, so the
real library fails on it too); raw DEFLATE is the stored-block model. -/
def c5D : Decomps := ⟨fun _ => none, fun _ => none, inflateRawStored⟩

/-- A raw-DEFLATE stored block holding the three bytes `"abc"`; real
`zlib.decompress(·, -15)` inflates it to `"abc"`, while `zlib.decompress`
and `gzip.decompress` reject it (header byte `01` is neither). -/
def c5stored : List Nat := [0x01, 0x03, 0x00, 0xFC, 0xFF, 0x61, 0x62, 0x63]

/-- C5 (amended): the ProtectedString value reader consumes a `u32`
length and that many bytes, and decodes
`decodeUtf8OrLatin1 (protectedTransform …)` of them, where the
decompression heuristic is: payloads starting with `78 9C` are
zlib-decompressed, raw DEFLATE is attempted ONLY when that zlib attempt
raises, and payloads NOT starting with `78 9C` — or for which both
attempts fail — are used as-is. -/
theorem c5_protected_string_decode (D : Decomps) (data : List Nat)
    (p len p1 : Nat) (h : readU32 data p = .ok (len, p1)) :
    readProtectedOne D data p =
      .ok (.str (decodeUtf8OrLatin1
        (protectedTransform D ((data.drop p1).take len))), p1 + len) ∧
    (∀ content : List Nat, content.take 2 ≠ [0x78, 0x9C] →
      protectedTransform D content = content) ∧
    (∀ content d, content.take 2 = [0x78, 0x9C] → D.zl content = some d →
      protectedTransform D content = d) ∧
    (∀ content d, content.take 2 = [0x78, 0x9C] → D.zl content = none →
      D.raw content = some d → protectedTransform D content = d) ∧
    (∀ content, content.take 2 = [0x78, 0x9C] → D.zl content = none →
      D.raw content = none → protectedTransform D content = content) := by
  refine ⟨?_, ?_, ?_, ?_, ?_⟩
  · simp [readProtectedOne, rbind, h]
  · intro content hc; simp [protectedTransform, hc]
  · intro content d hc hz; simp [protectedTransform, hc, hz]
  · intro content d hc hz hr; simp [protectedTransform, hc, hz, hr]
  · intro content hc hz hr; simp [protectedTransform, hc, hz, hr]

/-- Witness for C5's amended theorem: a two-byte uncompressed payload
`"AB"` is passed through unchanged and decoded as UTF-8. -/
theorem c5_protected_string_decode_witness :
    readProtectedOne noneD [2, 0, 0, 0, 65, 66] 0 = .ok (.str [65, 66], 6) := by
  have h := c5_protected_string_decode noneD [2, 0, 0, 0, 65, 66] 0 2 4 (by rfl)
  exact h.1.trans (by rfl)

/-- C5 counterexample: a ProtectedString payload that is a valid raw
DEFLATE stream but does not start with `78 9C`.  The claim says raw
DEFLATE is tried for such payloads (yielding `"abc"`); the code never
attempts it and keeps the compressed bytes as-is (decoded via the Latin-1
fallback, since `FC FF` is not UTF-8). -/
theorem c5_counterexample :
    readProtectedOne c5D ([8, 0, 0, 0] ++ c5stored) 0 =
      .ok (.str c5stored, 12) ∧
    protectedTransformSpec c5D c5stored = [0x61, 0x62, 0x63] ∧
    c5stored ≠ [0x61, 0x62, 0x63] :=
  ⟨by rfl, by rfl, by decide⟩

end RBX

namespace RBX

/-! ### Dictionary lemmas (for C6) -/

/-- A successful lookup is a member of the association list. -/
theorem alGet_mem {κ ν : Type} [DecidableEq κ] :
    ∀ (m : List (κ × ν)) (k : κ) (v : ν), alGet m k = some v → (k, v) ∈ m := by
  intro m
  induction m with
  | nil => intro k v h; simp [alGet] at h
  | cons e t ih =>
    intro k v h
    obtain ⟨k', v'⟩ := e
    simp only [alGet] at h
    split at h
    · cases h
      rename_i hk
      subst hk
      exact List.mem_cons_self _ _
    · exact List.mem_cons_of_mem _ (ih k v h)

/-- A member key always yields a successful lookup. -/
theorem alGet_isSome_of_mem {κ ν : Type} [DecidableEq κ] :
    ∀ (m : List (κ × ν)) (k : κ) (v : ν), (k, v) ∈ m →
      (alGet m k).isSome := by
  intro m
  induction m with
  | nil => intro k v h; simp at h
  | cons e t ih =>
    intro k v h
    obtain ⟨k', v'⟩ := e
    simp only [alGet]
    split
    · rfl
    · rename_i hk
      rcases List.mem_cons.mp h with heq | hmem
      · cases heq; exact absurd rfl hk
      · exact ih k v hmem

/-- Updating one key leaves lookups of other keys unchanged. -/
theorem alGet_alUpdate_ne {κ ν : Type} [DecidableEq κ] (f : ν → ν) :
    ∀ (m : List (κ × ν)) (k k' : κ), k ≠ k' →
      alGet (alUpdate f m k') k = alGet m k := by
  intro m
  induction m with
  | nil => intro k k' _; rfl
  | cons e t ih =>
    intro k k' hne
    obtain ⟨k0, v0⟩ := e
    simp only [alUpdate, alGet]
    by_cases h0 : k0 = k'
    · subst h0
      rw [if_pos rfl]
      simp only [alGet]
      rw [if_neg (fun h => hne h.symm), if_neg (fun h => hne h.symm)]
    · rw [if_neg h0]
      simp only [alGet]
      by_cases hk : k0 = k
      · rw [if_pos hk, if_pos hk]
      · rw [if_neg hk, if_neg hk]
        exact ih k k' hne

/-- Updating a present key applies `f` to its stored value. -/
theorem alGet_alUpdate_eq {κ ν : Type} [DecidableEq κ] (f : ν → ν) :
    ∀ (m : List (κ × ν)) (k : κ) (v : ν), alGet m k = some v →
      alGet (alUpdate f m k) k = some (f v) := by
  intro m
  induction m with
  | nil => intro k v h; simp [alGet] at h
  | cons e t ih =>
    intro k v h
    obtain ⟨k0, v0⟩ := e
    simp only [alGet] at h
    simp only [alUpdate]
    by_cases h0 : k0 = k
    · rw [if_pos h0] at h
      cases h
      rw [if_pos h0]
      simp only [alGet]
      rw [if_pos h0]
    · rw [if_neg h0] at h
      rw [if_neg h0]
      simp only [alGet]
      rw [if_neg h0]
      exact ih k v h

/-- Looking up the freshly inserted key returns the inserted value. -/
theorem alGet_alInsert_self {κ ν : Type} [DecidableEq κ] :
    ∀ (m : List (κ × ν)) (k : κ) (v : ν), alGet (alInsert m k v) k = some v := by
  intro m
  induction m with
  | nil => intro k v; simp [alInsert, alGet]
  | cons e t ih =>
    intro k v
    obtain ⟨k0, v0⟩ := e
    simp only [alInsert]
    by_cases h0 : k0 = k
    · rw [if_pos h0]
      simp [alGet]
    · rw [if_neg h0]
      simp only [alGet]
      rw [if_neg h0]
      exact ih k v

/-- `setProp` on another key is invisible. -/
theorem alGet_setProp_ne (st : PState) (r r' : Int) (pname : List Nat)
    (v : PValue) (h : r ≠ r') :
    alGet (setProp st r' pname v).instances r = alGet st.instances r :=
  alGet_alUpdate_ne _ st.instances r r' h

/-- `setProp` on a present key records the property. -/
theorem alGet_setProp_eq (st : PState) (r : Int) (pname : List Nat)
    (v : PValue) (i : PInstance) (h : alGet st.instances r = some i) :
    alGet (setProp st r pname v).instances r =
      some { i with properties := alInsert i.properties pname v } :=
  alGet_alUpdate_eq _ st.instances r i h

/-- Keys outside the matched list are untouched by `assignAll`. -/
theorem assignAll_frame (pname : List Nat) :
    ∀ (matched : List (Int × PInstance)) (values : List PValue) (st : PState)
      (r : Int), r ∉ matched.map Prod.fst →
      alGet (assignAll pname st matched values).instances r =
        alGet st.instances r := by
  intro matched
  induction matched with
  | nil => intro values st r _; rfl
  | cons e ms ih =>
    intro values st r hr
    obtain ⟨r0, i0⟩ := e
    cases values with
    | nil => rfl
    | cons v vs =>
      simp only [List.map_cons, List.mem_cons, not_or] at hr
      simp only [assignAll]
      rw [ih vs _ r hr.2]
      exact alGet_setProp_ne st r r0 pname v hr.1

/-- After `assignAll`, every matched key holds an instance whose property
map contains `pname` (the matched keys are distinct and all present). -/
theorem assignAll_get (pname : List Nat) :
    ∀ (matched : List (Int × PInstance)) (values : List PValue) (st : PState)
      (r : Int),
      (matched.map Prod.fst).Nodup →
      matched.length ≤ values.length →
      (∀ k ∈ matched.map Prod.fst, (alGet st.instances k).isSome) →
      r ∈ matched.map Prod.fst →
      ∃ j, alGet (assignAll pname st matched values).instances r = some j ∧
        alGet j.properties pname ≠ none := by
  intro matched
  induction matched with
  | nil => intro values st r _ _ _ hmem; simp at hmem
  | cons e ms ih =>
    intro values st r hnd hlen hsome hmem
    obtain ⟨r0, i0⟩ := e
    cases values with
    | nil => simp at hlen
    | cons v vs =>
      simp only [List.map_cons, List.nodup_cons] at hnd
      have hs0 : (alGet st.instances r0).isSome :=
        hsome r0 (by simp)
      obtain ⟨i, hi⟩ := Option.isSome_iff_exists.mp hs0
      simp only [assignAll]
      rcases List.mem_cons.mp hmem with heq | hmem'
      · subst heq
        refine ⟨{ i with properties := alInsert i.properties pname v }, ?_, ?_⟩
        · rw [assignAll_frame pname ms vs _ r hnd.1]
          exact alGet_setProp_eq st r pname v i hi
        · rw [alGet_alInsert_self]
          simp
      · have hne : r ≠ r0 := fun h => hnd.1 (h ▸ hmem')
        refine ih vs (setProp st r0 pname v) r hnd.2
          (by simpa using hlen) ?_ hmem'
        intro k hk
        have hkne : k ≠ r0 := fun h => hnd.1 (h ▸ hk)
        rw [alGet_setProp_ne st k r0 pname v hkne]
        exact hsome k (by simp [hk])

/-! ### C6: unknown value-type recovery -/

/-- The per-element fallback always yields exactly `n` values. -/
theorem fallbackPerElem_length (data : List Nat) :
    ∀ n pos, (fallbackPerElem data n pos).1.length = n := by
  intro n
  induction n with
  | zero => intro pos; rfl
  | succ n ih =>
    intro pos
    simp only [fallbackPerElem]
    cases h : readU32 data pos with
    | error e => simp [ih]
    | ok r =>
      obtain ⟨l, p1⟩ := r
      by_cases hc : l ≠ 0 ∧ p1 + l ≤ data.length
      · simp [hc, ih]
      · simp [hc, ih]

/-- Unknown-tag recovery always yields exactly `count` values. -/
theorem readUnknownValues_length (data : List Nat) (pos count : Nat) :
    (readUnknownValues data pos count).1.length = count := by
  simp only [readUnknownValues]
  cases h : readVarint data pos 0 0 with
  | error e => simp [fallbackPerElem_length]
  | ok r =>
    obtain ⟨len, p1⟩ := r
    by_cases hc : p1 + len ≤ data.length
    · simp [hc]
    · simp [hc, fallbackPerElem_length]

/-- A tag outside the handled set takes the recovery arm of
`_read_property`, which is total. -/
theorem readValues_unknown (D : Decomps) (data : List Nat) (st : PState)
    (vt count pos : Nat) (hunk : vt ∉ handledTags) :
    readValues D data st vt count pos = .ok (readUnknownValues data pos count) := by
  simp only [handledTags, List.mem_cons, List.not_mem_nil, or_false, not_or] at hunk
  obtain ⟨n1, n2, n3, n4, n5, n6, n7, n8, n9, n10, n11, n12, n13, n14, n15,
    n16, n17, n18, n19, n20, n21⟩ := hunk
  unfold readValues
  rw [if_neg n1, if_neg n2, if_neg n3, if_neg n4, if_neg n5, if_neg n6,
    if_neg n7, if_neg n8, if_neg n9, if_neg n10, if_neg n11, if_neg n12,
    if_neg n13, if_neg n14, if_neg n15, if_neg n16, if_neg n17, if_neg n18,
    if_neg n19, if_neg n20, if_neg n21]

/-- C6: a `PROP` token whose value-type tag is outside the handled set is
recovered, not fatal: `_read_property` returns normally (shared-varint
path, per-value `u32` path or `"<unknown>"` placeholders — all arms are
exception-free), every instance of the token's class id ends up with the
property assigned, and the token loop then continues with the remaining
tokens, so subsequent chunks are still processed. -/
theorem c6_unknown_tag_recovery (D : Decomps) (data : List Nat)
    (pos p1 p2 p3 cid vt : Nat) (pname : List Nat) (st : PState)
    (h1 : readVarint data pos 0 0 = .ok (cid, p1))
    (h2 : readString data p1 = .ok (pname, p2))
    (h3 : readByte data p2 = .ok (vt, p3))
    (hunk : vt ∉ handledTags)
    (hnodup : (st.instances.map Prod.fst).Nodup) :
    ∃ st' p4, readProperty D data pos st = .ok (st', p4) ∧
      (∀ r i, alGet st.instances r = some i → i.class_id = cid →
        ∃ j, alGet st'.instances r = some j ∧
          alGet j.properties pname ≠ none) ∧
      (∀ fuel tokpos, readByte data tokpos = .ok (2, pos) →
        tokpos < data.length →
        tokenLoop D data (fuel + 1) tokpos st = tokenLoop D data fuel p4 st') := by
  classical
  set matched := st.instances.filter (fun ri => ri.2.class_id = cid) with hmdef
  by_cases hm : matched.length = 0
  · have heq : readProperty D data pos st = .ok (st, p3) := by
      simp only [readProperty, bindR, h1, h2, h3]
      rw [← hmdef, if_pos hm]
    refine ⟨st, p3, heq, ?_, ?_⟩
    · intro r i hget hcid
      exfalso
      have hmem : (r, i) ∈ st.instances := alGet_mem _ _ _ hget
      have hmf : (r, i) ∈ matched := by
        rw [hmdef]
        simp [List.mem_filter, hmem, hcid]
      rw [List.length_eq_zero.mp hm] at hmf
      simp at hmf
    · intro fuel tokpos hb htp
      simp only [tokenLoop, if_pos htp]
      rw [hb]
      dsimp only
      rw [if_neg (by decide : ¬ (2 : Nat) = 1), if_pos (rfl : (2 : Nat) = 2),
        heq]
  · rcases hru : readUnknownValues data p3 matched.length with ⟨vals, p4⟩
    have hlen : vals.length = matched.length := by
      have := readUnknownValues_length data p3 matched.length
      rw [hru] at this
      exact this
    have heq : readProperty D data pos st =
        .ok (assignAll pname st matched vals, p4) := by
      simp only [readProperty, bindR, h1, h2, h3]
      rw [← hmdef, if_neg hm,
        readValues_unknown D data st vt matched.length p3 hunk, hru]
    refine ⟨_, _, heq, ?_, ?_⟩
    · intro r i hget hcid
      have hmem : (r, i) ∈ st.instances := alGet_mem _ _ _ hget
      have hmf : (r, i) ∈ matched := by
        rw [hmdef]
        simp [List.mem_filter, hmem, hcid]
      have hrmem : r ∈ matched.map Prod.fst :=
        List.mem_map_of_mem Prod.fst hmf
      have hndm : (matched.map Prod.fst).Nodup := by
        rw [hmdef]
        exact List.Nodup.sublist
          (List.Sublist.map Prod.fst (List.filter_sublist _)) hnodup
      have hsome : ∀ k ∈ matched.map Prod.fst,
          (alGet st.instances k).isSome := by
        intro k hk
        obtain ⟨⟨k', w⟩, hmem2, hk2⟩ := List.mem_map.mp hk
        cases hk2
        rw [hmdef] at hmem2
        exact alGet_isSome_of_mem _ _ _ (List.mem_of_mem_filter hmem2)
      exact assignAll_get pname matched vals st r hndm (by omega) hsome hrmem
    · intro fuel tokpos hb htp
      simp only [tokenLoop, if_pos htp]
      rw [hb]
      dsimp only
      rw [if_neg (by decide : ¬ (2 : Nat) = 1), if_pos (rfl : (2 : Nat) = 2),
        heq]

/-- Instance map for the C6 witness (one instance of class id 3). -/
def c6st : PState := ⟨[(0, ⟨3, [], 0, [], []⟩)], none, [], []⟩

/-- A `PROP` body with class id 3, empty property name, the unknown tag
`0xFE`, then `varint 5` and the payload `"world"` (spec scenario 4). -/
def c6prop : List Nat := [3, 0, 0xFE] ++ [5] ++ [119, 111, 114, 108, 100]

/-- Witness for C6 at spec scenario 4: the unknown-tag `PROP` is
recovered and the affected instance receives a value. -/
theorem c6_unknown_tag_recovery_witness :
    ∃ st' p4, readProperty noneD c6prop 0 c6st = .ok (st', p4) ∧
      (∀ r i, alGet c6st.instances r = some i → i.class_id = 3 →
        ∃ j, alGet st'.instances r = some j ∧
          alGet j.properties [] ≠ none) ∧
      (∀ fuel tokpos, readByte c6prop tokpos = .ok (2, 0) →
        tokpos < c6prop.length →
        tokenLoop noneD c6prop (fuel + 1) tokpos c6st =
          tokenLoop noneD c6prop fuel p4 st') :=
  c6_unknown_tag_recovery noneD c6prop 0 1 2 3 3 0xFE [] c6st
    (by rfl) (by rfl) (by rfl) (by decide) (by decide)

end RBX

namespace RBX

/-! ### Heuristic scavenger and script canonicalizer
(`binary_extractor.py`)

File writes are modelled by the contents appended to the per-category
result lists (each `open(...).write` in the source appends exactly one
entry to the corresponding list of the returned dict); filenames (the
`_safe_name` collision rule and the name scraped from the original text)
do not affect which categories receive outputs and are outside the
embedding. -/

/-- `bytes.find(pat, start)`: the least index `≥ start` where `pat`
occurs, or `none` (Python's `-1`). -/
def findSubF (data pat : List Nat) : Nat → Nat → Option Nat
  | 0, _ => none
  | fuel + 1, start =>
    if start + pat.length ≤ data.length then
      if (data.drop start).take pat.length = pat then some start
      else findSubF data pat fuel (start + 1)
    else none

/-- Wrapper supplying sufficient fuel for `findSubF`. -/
def findSub (data pat : List Nat) (start : Nat) : Option Nat :=
  findSubF data pat (data.length + 1 - start) start

/-- Python's substring test `pat in s` (byte/character level). -/
def hasInfix (s pat : List Nat) : Bool := (findSub s pat 0).isSome

/-- Big-endian value of a byte list (PNG chunk lengths). -/
def beNat (bs : List Nat) : Nat :=
  bs.foldl (fun acc b => acc * 256 + b) 0

/-- The PNG signature. -/
def PNG_SIG : List Nat := [0x89, 0x50, 0x4E, 0x47, 0x0D, 0x0A, 0x1A, 0x0A]

/-- JPEG start-of-image marker. -/
def JPEG_SOI : List Nat := [0xFF, 0xD8]

/-- JPEG end-of-image marker. -/
def JPEG_EOI : List Nat := [0xFF, 0xD9]

/-- Walk PNG chunks (`u32be` length, 4-byte type, payload, CRC) from
offset `i` until an `IEND` type is found; `some` is the end offset just
past `IEND`'s CRC, `none` means the walk ran off the buffer
(the `while`-`else` arm of the source). -/
def pngChunkWalkF (data : List Nat) : Nat → Nat → Option Nat
  | 0, _ => none
  | fuel + 1, i =>
    if i + 8 ≤ data.length then
      if (data.drop (i + 4)).take 4 = strCp "IEND" then some (i + 12)
      else
        pngChunkWalkF data fuel (i + 4 + 4 + beNat ((data.drop i).take 4) + 4)
    else none

/-- `extract_pngs`: scan for the PNG signature; on each hit walk chunks
to `IEND` and emit the byte range, else resume one byte past the hit. -/
def extract_pngsF (data : List Nat) : Nat → Nat → List (List Nat)
  | 0, _ => []
  | fuel + 1, start =>
    match findSub data PNG_SIG start with
    | none => []
    | some idx =>
      match pngChunkWalkF data (data.length + 1) (idx + 8) with
      | some endIdx =>
        ((data.drop idx).take (endIdx - idx)) :: extract_pngsF data fuel endIdx
      | none => extract_pngsF data fuel (idx + 1)

/-- Wrapper for `extract_pngs`. -/
def extract_pngs (data : List Nat) : List (List Nat) :=
  extract_pngsF data (data.length + 1) 0

/-- `extract_jpegs`: emit every `FF D8 … FF D9` range, no validation. -/
def extract_jpegsF (data : List Nat) : Nat → Nat → List (List Nat)
  | 0, _ => []
  | fuel + 1, start =>
    match findSub data JPEG_SOI start with
    | none => []
    | some s =>
      match findSub data JPEG_EOI (s + 2) with
      | none => []
      | some e =>
        ((data.drop s).take (e + 2 - s)) :: extract_jpegsF data fuel (e + 2)

/-- Wrapper for `extract_jpegs`. -/
def extract_jpegs (data : List Nat) : List (List Nat) :=
  extract_jpegsF data (data.length + 1) 0

/-- The scavenger's printable-byte class: TAB or `0x20..0x7E`. -/
def isPrintableB (b : Nat) : Bool := b = 0x09 ∨ (0x20 ≤ b ∧ b ≤ 0x7E)

/-- `extract_ascii_strings`: maximal printable runs of length at least
`minLen` (the regex `[\x09\x20-\x7e]{minLen,}`); printable ASCII decodes
to itself under UTF-8. -/
def extract_ascii_stringsF (minLen : Nat) : Nat → List Nat → List (List Nat)
  | 0, _ => []
  | fuel + 1, l =>
    let l1 := l.dropWhile (fun b => ! isPrintableB b)
    let run := l1.takeWhile isPrintableB
    let rest := l1.drop run.length
    if l1 = [] then []
    else if minLen ≤ run.length then run :: extract_ascii_stringsF minLen fuel rest
    else extract_ascii_stringsF minLen fuel rest

/-- Wrapper for `extract_ascii_strings`. -/
def extract_ascii_strings (data : List Nat) (minLen : Nat) : List (List Nat) :=
  extract_ascii_stringsF minLen (data.length + 1) data

/-- The scavenger's Lua keyword list. -/
def LUA_KEYWORDS : List (List Nat) :=
  [strCp "function", strCp "local", strCp "end", strCp "return",
   strCp "print", strCp "--"]

/-- `find_lua_candidates`: keep strings containing at least one Lua
keyword and longer than 30 characters. -/
def find_lua_candidates (strings : List (List Nat)) : List (List Nat) :=
  strings.filter (fun s =>
    LUA_KEYWORDS.any (fun kw => hasInfix s kw) ∧ 30 < s.length)

/-- Strip NUL characters (`s.replace('\x00', '')`). -/
def stripNulls (s : List Nat) : List Nat := s.filter (fun c => c ≠ 0)

/-- Opening marker of a protected-string envelope. -/
def psStartMarker : List Nat := strCp "<ProtectedString name=\"Source\">"

/-- Closing marker of a protected-string envelope. -/
def psEndMarker : List Nat := strCp "</ProtectedString>"

/-- `extract_protected_strings_from_bytes`: the payload between each
marker pair, decoded UTF-8-lossy with NULs stripped, kept when longer
than 10 characters. -/
def extract_protected_stringsF (data : List Nat) : Nat → Nat → List (List Nat)
  | 0, _ => []
  | fuel + 1, idx =>
    match findSub data psStartMarker idx with
    | none => []
    | some si0 =>
      let si := si0 + psStartMarker.length
      match findSub data psEndMarker si with
      | none => []
      | some ei =>
        let s := stripNulls (utf8DecodeIgnore ((data.drop si).take (ei - si)))
        (if 10 < s.length then [s] else []) ++
          extract_protected_stringsF data fuel (ei + psEndMarker.length)

/-- Wrapper for `extract_protected_strings_from_bytes`. -/
def extract_protected_strings (data : List Nat) : List (List Nat) :=
  extract_protected_stringsF data (data.length + 1) 0

/-- First-seen-order deduplication (the `seen` set of the source). -/
def dedupF : List (List Nat) → List (List Nat) → List (List Nat)
  | _, [] => []
  | seen, s :: t =>
    if s ∈ seen then dedupF seen t else s :: dedupF (s :: seen) t

/-- Deduplicate preserving order. -/
def dedup (l : List (List Nat)) : List (List Nat) := dedupF [] l

/-- The post-update capture check shared by the branches of the scan. -/
def luaBalanceStep (text : List Nat) (rel : Nat)
    (cont : Nat → Nat → Nat → Option (List Nat))
    (j fc ec lastPos : Nat) : Option (List Nat) :=
  if 0 < fc ∧ fc ≤ ec then
    let candidate := stripNulls ((text.drop rel).take (lastPos + 3 - rel))
    if 30 < candidate.length then some candidate else none
  else cont j fc ec

/-- The balancing scan of `extract_lua_blocks_by_keywords`: from offset
`j` count `function` / `end` keywords; when the cumulative `end` count
reaches the `function` count, emit the window `[rel, last_pos + 3)` minus
NULs when longer than 30 characters. -/
def luaBalanceF (text : List Nat) (rel : Nat) :
    Nat → Nat → Nat → Nat → Option (List Nat)
  | 0, _, _, _ => none
  | fuel + 1, j, fc, ec =>
    if j < text.length then
      match findSub text (strCp "function") j, findSub text (strCp "end") j with
      | none, none => none
      | some fpos, none => luaBalanceStep text rel (luaBalanceF text rel fuel)
          (fpos + 8) (fc + 1) ec fpos
      | none, some epos => luaBalanceStep text rel (luaBalanceF text rel fuel)
          (epos + 3) fc (ec + 1) epos
      | some fpos, some epos =>
        if fpos < epos then
          luaBalanceStep text rel (luaBalanceF text rel fuel)
            (fpos + 8) (fc + 1) ec fpos
        else
          luaBalanceStep text rel (luaBalanceF text rel fuel)
            (epos + 3) fc (ec + 1) epos
    else none

/-- `extract_lua_blocks_by_keywords`: around every raw `function` hit,
open a `[-2000, +20000]` window, decode lossily, and run the balancing
scan; deduplicate at the end. -/
def extract_lua_blocksF (data : List Nat) : Nat → Nat → List (List Nat)
  | 0, _ => []
  | fuel + 1, idx =>
    match findSub data (strCp "function") idx with
    | none => []
    | some si =>
      let left := si - 2000
      let right := min data.length (si + 20000)
      let text := utf8DecodeIgnore ((data.drop left).take (right - left))
      let out :=
        match findSub text (strCp "function") 0 with
        | none => []
        | some rel =>
          match luaBalanceF text rel (text.length + 1) rel 0 0 with
          | some cand => [cand]
          | none => []
      out ++ extract_lua_blocksF data fuel (si + 8)

/-- Wrapper for `extract_lua_blocks_by_keywords`. -/
def extract_lua_blocks (data : List Nat) : List (List Nat) :=
  dedup (extract_lua_blocksF data (data.length + 1) 0)

/-- The gap-tolerant extension scan of `extract_merged_printable_blocks`:
extend `j` while printable, tolerating up to `maxGap` consecutive
non-printable bytes. -/
def mergedGapF (data : List Nat) (maxGap : Nat) : Nat → Nat → Nat → Nat
  | 0, j, _ => j
  | fuel + 1, j, gap =>
    if j < data.length then
      if isPrintableB (data.getD j 0) then mergedGapF data maxGap fuel (j + 1) 0
      else if maxGap < gap + 1 then j
      else mergedGapF data maxGap fuel (j + 1) (gap + 1)
    else j

/-- `extract_merged_printable_blocks`: printable regions merged across
small binary gaps, decoded lossily, NULs stripped, kept at `minLen`. -/
def extract_mergedF (data : List Nat) (minLen maxGap : Nat) :
    Nat → Nat → List (List Nat)
  | 0, _ => []
  | fuel + 1, i =>
    if i < data.length then
      if isPrintableB (data.getD i 0) then
        let j := mergedGapF data maxGap (data.length + 1) (i + 1) 0
        let s := stripNulls (utf8DecodeIgnore ((data.drop i).take (j - i)))
        (if minLen ≤ s.length then [s] else []) ++
          extract_mergedF data minLen maxGap fuel j
      else extract_mergedF data minLen maxGap fuel (i + 1)
    else []

/-- Wrapper for `extract_merged_printable_blocks`. -/
def extract_merged_printable_blocks (data : List Nat) (minLen maxGap : Nat) :
    List (List Nat) :=
  dedup (extract_mergedF data minLen maxGap (data.length + 1) 0)

/-- ASCII lower-casing (`str.lower` restricted to the ASCII letters the
scavenger's data contains). -/
def lowerCp (s : List Nat) : List Nat :=
  s.map (fun c => if 65 ≤ c ∧ c ≤ 90 then c + 32 else c)

/-- `find_asset_urls`: strings mentioning `rbxasset` or `http`
(case-insensitively for the latter), first-seen order. -/
def find_asset_urls (strings : List (List Nat)) : List (List Nat) :=
  dedup (strings.filter (fun s =>
    hasInfix s (strCp "rbxasset") ∨ hasInfix s (strCp "http") ∨
      hasInfix (lowerCp s) (strCp "http")))

end RBX

namespace RBX

/-! ### Script cleaning and canonicalization -/

/-- Whitespace for `str.strip` / `\s` (the ASCII/Latin-1 fragment Python
recognizes; the scavenger's strings contain only these). -/
def pyIsSpace (c : Nat) : Bool :=
  c = 9 ∨ c = 10 ∨ c = 11 ∨ c = 12 ∨ c = 13 ∨ c = 32 ∨ c = 133 ∨ c = 160

/-- Line-break characters of `str.splitlines`. -/
def isLineBreak (c : Nat) : Bool :=
  c = 10 ∨ c = 11 ∨ c = 12 ∨ c = 13 ∨ c = 28 ∨ c = 29 ∨ c = 30 ∨
    c = 133 ∨ c = 8232 ∨ c = 8233

/-- `str.splitlines` (CRLF counts as one break; no trailing empty line). -/
def splitlinesGo : List Nat → List Nat → List (List Nat)
  | acc, [] => if acc = [] then [] else [acc.reverse]
  | acc, 13 :: 10 :: t => acc.reverse :: splitlinesGo [] t
  | acc, c :: t =>
    if isLineBreak c then acc.reverse :: splitlinesGo [] t
    else splitlinesGo (c :: acc) t

/-- Split a string into its lines. -/
def splitlines (s : List Nat) : List (List Nat) := splitlinesGo [] s

/-- `str.strip()`. -/
def stripCp (s : List Nat) : List Nat :=
  ((s.dropWhile pyIsSpace).reverse.dropWhile pyIsSpace).reverse

/-- The Lua patterns `_clean_lua_script` requires. -/
def luaPatterns : List (List Nat) :=
  [strCp "function", strCp "local", strCp "end", strCp "print", strCp "--",
   strCp "if", strCp "then", strCp "else", strCp "for", strCp "while",
   strCp "script", strCp "game", strCp "workspace", strCp "require",
   strCp "module"]

/-- `_clean_lua_script`: strip NULs; reject under 10 characters or
without any Lua pattern (case-insensitive); strip each line, drop empty
lines, rejoin with single newlines; reject when empty. -/
def cleanLuaScript (text : List Nat) : Option (List Nat) :=
  let t := stripNulls text
  if t.length < 10 then none
  else if ! luaPatterns.any (fun kw => hasInfix (lowerCp t) kw) then none
  else
    let lines := (splitlines t).map stripCp
    let cleaned := List.intercalate [10] (lines.filter (fun l => l ≠ []))
    if cleaned = [] then none else some cleaned

/-- The strong-indicator check of the script path's length filter. -/
def strongKw (cleaned : List Nat) : Bool :=
  [strCp "function", strCp "return", strCp "local", strCp "require"].any
    (fun k => hasInfix cleaned k)

/-- Collapse every whitespace run to a single space
(`re.sub(r"\s+", " ", ·)`). -/
def collapseWsF : Nat → List Nat → List Nat
  | 0, _ => []
  | _, [] => []
  | fuel + 1, c :: t =>
    if pyIsSpace c then 32 :: collapseWsF fuel (t.dropWhile pyIsSpace)
    else c :: collapseWsF fuel t

/-- Wrapper for whitespace collapsing. -/
def collapseWs (s : List Nat) : List Nat := collapseWsF (s.length + 1) s

/-- The admission-and-canonicalization step of the script path: for each
candidate, `_clean_lua_script`, the 120-character/strong-keyword filter,
then the whitespace-collapsed canonical form.  The SHA-256 of the
canonical form keys the table in the source; since the hash is a function
of the canonical form, the table is modelled keyed by the canonical form
itself. -/
def scriptCanon (src : List Nat) : Option (List Nat × List Nat) :=
  if src = [] then none
  else
    match cleanLuaScript src with
    | none => none
    | some cleaned =>
      if cleaned.length < 120 ∧ ! strongKw cleaned then none
      else some (collapseWs (stripCp cleaned), cleaned)

/-- One iteration of the `norm_map` loop: admit the candidate, then keep
the entry with the strictly longer cleaned body (ties keep the earlier
entry). -/
def normStep (m : List (List Nat × (List Nat × List Nat))) (src : List Nat) :
    List (List Nat × (List Nat × List Nat)) :=
  match scriptCanon src with
  | none => m
  | some (norm, cleaned) =>
    match alGet m norm with
    | none => alInsert m norm (src, cleaned)
    | some prev =>
      if prev.2.length < cleaned.length then alInsert m norm (src, cleaned)
      else m

/-- The `norm_map` table after all candidates are consumed. -/
def buildNormMap (combined : List (List Nat)) :
    List (List Nat × (List Nat × List Nat)) :=
  combined.foldl normStep []

/-- Stable insertion into a cleaned-length-descending list (ties keep
earlier entries first), mirroring Python's stable `sorted(…, key=len,
reverse=True)`. -/
def insertDesc (x : List Nat × (List Nat × List Nat)) :
    List (List Nat × (List Nat × List Nat)) →
      List (List Nat × (List Nat × List Nat))
  | [] => [x]
  | y :: t =>
    if y.2.2.length < x.2.2.length then x :: y :: t else y :: insertDesc x t

/-- Stable sort of the table items by cleaned length, descending. -/
def sortDesc : List (List Nat × (List Nat × List Nat)) →
    List (List Nat × (List Nat × List Nat))
  | [] => []
  | x :: t => insertDesc x (sortDesc t)

/-- `isprintable` on the ASCII range (`_clean_asset_url` filters with it;
its inputs are printable-ASCII runs plus TAB). -/
def pyIsPrintable (c : Nat) : Bool := 0x20 ≤ c ∧ c ≤ 0x7E

/-- `_clean_asset_url`: keep printable characters, require an asset-like
substring (case-insensitive), return stripped. -/
def cleanAssetUrl (text : List Nat) : Option (List Nat) :=
  let t := text.filter pyIsPrintable
  if [strCp "rbxasset", strCp "http", strCp "www", strCp ".com",
      strCp "asset", strCp "sound", strCp "image"].any
        (fun k => hasInfix (lowerCp t) k)
  then some (stripCp t) else none

/-- The asset-reference classification loop of `extract_from_bytes`:
sound-like references, image-like references, and written generic
assets. -/
def classifyAssets : List (List Nat) →
    (List (List Nat) × List (List Nat) × List (List Nat))
  | [] => ([], [], [])
  | ref :: t =>
    let rest := classifyAssets t
    match cleanAssetUrl ref with
    | none => rest
    | some cr =>
      if hasInfix (lowerCp cr) (strCp "sound") ∨
          hasInfix (lowerCp cr) (strCp "audio") then
        (rest.1, cr :: rest.2.1, rest.2.2)
      else if hasInfix (lowerCp cr) (strCp "image") ∨
          hasInfix (lowerCp cr) (strCp "texture") then
        (rest.1, rest.2.1, cr :: rest.2.2)
      else (cr :: rest.1, rest.2.1, rest.2.2)

/-- The option set consumed by `extract_from_bytes`
(`options.get(key, False)`). -/
structure ExtractOptions where
  scripts : Bool
  models : Bool
  sounds : Bool
  images : Bool

/-- The per-category result of `extract_from_bytes`; file writes are
modelled by the contents appended to these lists. -/
structure ExtractResult where
  scripts : List (List Nat)
  images : List (List Nat)
  sounds : List (List Nat)
  models : List (List Nat)
  assets : List (List Nat)
  sound_refs : List (List Nat)
  image_refs : List (List Nat)

/-- `extract_from_bytes`: images are extracted UNCONDITIONALLY (no
options check in the source); scripts, models and sounds are gated by
their options; asset references are always classified. -/
def extract_from_bytes (data : List Nat) (options : ExtractOptions) :
    ExtractResult :=
  let imgs := extract_pngs data ++ extract_jpegs data
  let strings := extract_ascii_strings data 8
  let scripts :=
    if options.scripts then
      let protectedStrs := extract_protected_strings data
      let lua_blocks := extract_lua_blocks data
      let lua_cands := find_lua_candidates strings
      let merged := extract_merged_printable_blocks data 120 48
      let combined := protectedStrs ++ lua_blocks ++ merged ++ lua_cands
      (sortDesc (buildNormMap combined)).map (fun kv => kv.2.2)
    else []
  let ac := classifyAssets (find_asset_urls strings)
  let models :=
    if options.models then
      strings.filter (fun s =>
        hasInfix s (strCp "<Model") ∨ hasInfix s (strCp "<Part"))
    else []
  let sounds :=
    if options.sounds then
      strings.filter (fun s =>
        hasInfix s (strCp "SoundId") ∨ hasInfix (lowerCp s) (strCp "sound") ∨
          hasInfix (lowerCp s) (strCp "wav"))
    else []
  ⟨scripts, imgs, sounds, models, ac.1, ac.2.1, ac.2.2⟩

end RBX

namespace RBX

/-! ### C8: option gating of output categories

`extract_from_binary` is the orchestrator: it runs the structured parser
first, writes parser-extracted script properties, then merges the
heuristic `extract_from_bytes` results.  The input file's bytes are the
`data` parameter; directory creation is a no-op of the embedding.  The
script-merge step skips heuristic paths already in the result, but
`_safe_name` never returns an existing path, so the check never fires and
the merge is a concatenation. -/

/-- The script-likeness test of the orchestrator's candidate collection:
a property named like `Source`/`script`/`<protected`, or a string value
holding a Lua keyword and longer than 30 characters. -/
def scriptLikeProp (pname pval : List Nat) : Bool :=
  if hasInfix (lowerCp pname) (strCp "source") ∨
      hasInfix (lowerCp pname) (strCp "script") ∨
      hasInfix (lowerCp pname) (strCp "<protected") then true
  else
    ([strCp "function", strCp "local", strCp "end", strCp "return",
      strCp "--"].any (fun k => hasInfix (lowerCp pval) k)) ∧ 30 < pval.length

/-- The string-valued, script-like properties of one instance, in
property-insertion order (`isinstance(pval, str)` keeps only `str`
values). -/
def strProps : List (List Nat × PValue) → List (List Nat × List Nat)
  | [] => []
  | (pname, v) :: t =>
    match v with
    | .str cs =>
      if scriptLikeProp pname cs then (pname, cs) :: strProps t else strProps t
    | _ => strProps t

/-- The orchestrator's parser candidates: run the structured parse inside
a `try` (any raise yields no candidates) and walk the instance map in
insertion order. -/
def parserCandidates (D : Decomps) (data : List Nat) :
    List (List Nat × List Nat) :=
  match parse D data with
  | .ok r => (r.instances.map (fun ri => strProps ri.2.properties)).flatten
  | .error _ => []

/-- The parser-extracted scripts written FIRST by the orchestrator, with
no options check: each candidate surviving `_clean_lua_script` produces
one `Scripts/*.lua` file holding the cleaned source (the property name
only shapes the filename). -/
def parserScripts : List (List Nat × List Nat) → List (List Nat)
  | [] => []
  | (_, src) :: t =>
    match cleanLuaScript src with
    | some cl => cl :: parserScripts t
    | none => parserScripts t

/-- `extract_from_binary`: structured-parser scripts first (ungated),
then the heuristic results merged in (scripts concatenated — the by-path
dedup can never fire — and every other category extended from empty). -/
def extract_from_binary (D : Decomps) (data : List Nat)
    (options : ExtractOptions) : ExtractResult :=
  let pscripts := parserScripts (parserCandidates D data)
  let heur := extract_from_bytes data options
  ⟨pscripts ++ heur.scripts, heur.images, heur.sounds, heur.models,
    heur.assets, heur.sound_refs, heur.image_refs⟩

/-- C8 (amended): the options gate only part of the extraction.  The
models and sounds categories are gated across both paths (the structured
path never produces them), and the scripts option gates the HEURISTIC
script path; but the structured path writes parser-extracted
`Scripts/*.lua` regardless of the scripts option, and the images category
is extracted unconditionally in both paths (see `c8_counterexample`). -/
theorem c8_category_gating (D : Decomps) (data : List Nat)
    (options : ExtractOptions) :
    (options.models = false → (extract_from_binary D data options).models = []) ∧
    (options.sounds = false → (extract_from_binary D data options).sounds = []) ∧
    (options.scripts = false → (extract_from_binary D data options).scripts =
      parserScripts (parserCandidates D data)) ∧
    (options.scripts = false → (extract_from_bytes data options).scripts = []) := by
  refine ⟨fun h => ?_, fun h => ?_, fun h => ?_, fun h => ?_⟩ <;>
    simp [extract_from_binary, extract_from_bytes, h]

/-- A 20-byte buffer that is exactly a minimal embedded PNG
(signature followed by an `IEND` chunk). -/
def c8png : List Nat := PNG_SIG ++ [0, 0, 0, 0] ++ strCp "IEND" ++ [0, 0, 0, 0]

/-- All four extraction options disabled. -/
def c8opts : ExtractOptions := ⟨false, false, false, false⟩

/-- A raw token-stream chunk payload: one `BasePart` instance (referent
0) and a `Source` string property `"local x = 1 return x"`, then `END`.
Real decompression fails on it exactly as the `noneD` model says: no
gzip magic, zlib method nibble 1, and both raw-DEFLATE attempts hit
stored blocks with mismatched `LEN`/`NLEN`. -/
def c8payload : List Nat :=
  [1, 0, 8] ++ strCp "BasePart" ++ [0] ++ [1, 0, 0, 0] ++ [0, 0, 0, 0] ++
    [2, 0, 6] ++ strCp "Source" ++ [1, 20] ++
    strCp "local x = 1 return x" ++ [4]

/-- A complete binary file: header, then one 52-byte uncompressed
chunk holding `c8payload`. -/
def c8bin : List Nat :=
  strCp "<roblox!" ++ [0, 0, 0] ++ [52, 0, 0, 0] ++ [0, 0, 0, 0] ++ c8payload

/-- The C8 input: the parseable binary file followed by an embedded PNG
(the trailing PNG bytes read as an over-long chunk header, which the
chunk loop skips). -/
def c8all : List Nat := c8bin ++ c8png

/-- Witness for C8's amended theorem at the concrete input: with every
option false, models and sounds are empty, the orchestrator's scripts
are exactly the parser-extracted ones, and the heuristic script path is
silent. -/
theorem c8_category_gating_witness :
    (extract_from_binary noneD c8all c8opts).models = [] ∧
    (extract_from_binary noneD c8all c8opts).sounds = [] ∧
    (extract_from_binary noneD c8all c8opts).scripts =
      parserScripts (parserCandidates noneD c8all) ∧
    (extract_from_bytes c8all c8opts).scripts = [] := by
  have h := c8_category_gating noneD c8all c8opts
  exact ⟨h.1 rfl, h.2.1 rfl, h.2.2.1 rfl, h.2.2.2 rfl⟩

/-- C8 counterexample: one extraction with all options false still
produces outputs in two categories — the structured path writes the
parser-extracted script although `scripts = false`, and the embedded PNG
is written although `images = false` — refuting the claimed gating for
both the structured and the heuristic path. -/
theorem c8_counterexample :
    (extract_from_binary noneD c8all c8opts).scripts =
      [strCp "local x = 1 return x"] ∧
    (extract_from_binary noneD c8all c8opts).images = [c8png] ∧
    c8opts.scripts = false ∧ c8opts.images = false :=
  ⟨by rfl, by rfl, by rfl, by rfl⟩

end RBX

namespace RBX

/-! ### C9: script dedup canonicality -/

/-- Lookups of other keys pass through an insertion. -/
theorem alGet_alInsert_ne {κ ν : Type} [DecidableEq κ] :
    ∀ (m : List (κ × ν)) (k : κ) (v : ν) (k' : κ), k' ≠ k →
      alGet (alInsert m k v) k' = alGet m k' := by
  intro m
  induction m with
  | nil => intro k v k' h; simp [alInsert, alGet, Ne.symm h]
  | cons e t ih =>
    intro k v k' h
    obtain ⟨k0, v0⟩ := e
    simp only [alInsert]
    by_cases h0 : k0 = k
    · subst h0
      rw [if_pos rfl]
      simp only [alGet]
      rw [if_neg (fun hh => h hh.symm), if_neg (fun hh => h hh.symm)]
    · rw [if_neg h0]
      simp only [alGet]
      by_cases hk : k0 = k'
      · rw [if_pos hk, if_pos hk]
      · rw [if_neg hk, if_neg hk]
        exact ih k v k' h

/-- The selection rule the spec describes, written independently of the
dictionary: scan the candidates left to right, keep the admitted entry
with canonical form `k` whose cleaned body is the longest, replacing only
on a STRICTLY longer body — so ties retain the earlier candidate. -/
def bestStep (k : List Nat) (acc : Option (List Nat × List Nat))
    (src : List Nat) : Option (List Nat × List Nat) :=
  match scriptCanon src with
  | some (k', cleaned) =>
    if k' = k then
      match acc with
      | none => some (src, cleaned)
      | some prev =>
        if prev.2.length < cleaned.length then some (src, cleaned) else acc
    else acc
  | none => acc

/-- The longest-ties-earliest selection over a candidate list. -/
def bestFor (k : List Nat) (candidates : List (List Nat)) :
    Option (List Nat × List Nat) :=
  candidates.foldl (bestStep k) none

/-- One `norm_map` step, projected to a single key, acts as `bestStep`. -/
theorem alGet_normStep (m : List (List Nat × (List Nat × List Nat)))
    (src k : List Nat) :
    alGet (normStep m src) k = bestStep k (alGet m k) src := by
  unfold normStep bestStep
  cases hc : scriptCanon src with
  | none => rfl
  | some p =>
    obtain ⟨k', cleaned⟩ := p
    by_cases hk : k' = k
    · subst hk
      cases hg : alGet m k' with
      | none => simpa [hg] using alGet_alInsert_self m k' (src, cleaned)
      | some prev =>
        by_cases hlt : prev.2.length < cleaned.length
        · simpa [hg, hlt] using alGet_alInsert_self m k' (src, cleaned)
        · simp [hg, hlt]
    · cases hg : alGet m k' with
      | none =>
        simpa [hg, hk] using
          alGet_alInsert_ne m k' (src, cleaned) k (fun hh => hk hh.symm)
      | some prev =>
        by_cases hlt : prev.2.length < cleaned.length
        · simpa [hg, hlt, hk] using
            alGet_alInsert_ne m k' (src, cleaned) k (fun hh => hk hh.symm)
        · simp [hg, hlt, hk]

/-- The `norm_map` fold, projected to a single key, is the longest-ties-
earliest fold. -/
theorem alGet_foldl_normStep (k : List Nat) :
    ∀ (l : List (List Nat)) (m : List (List Nat × (List Nat × List Nat))),
      alGet (l.foldl normStep m) k = l.foldl (bestStep k) (alGet m k) := by
  intro l
  induction l with
  | nil => intro m; rfl
  | cons src t ih =>
    intro m
    simp only [List.foldl_cons]
    rw [ih (normStep m src), alGet_normStep]

/-- The table holds exactly the selection rule's entry for each key. -/
theorem alGet_buildNormMap (combined : List (List Nat)) (k : List Nat) :
    alGet (buildNormMap combined) k = bestFor k combined := by
  unfold buildNormMap bestFor
  rw [alGet_foldl_normStep k combined []]
  rfl

/-- A candidate admitted at key `k` makes the selection succeed. -/
theorem bestStep_some_of_canon (k : List Nat)
    (acc : Option (List Nat × List Nat)) (src cl : List Nat)
    (h : scriptCanon src = some (k, cl)) :
    ∃ y, bestStep k acc src = some y := by
  unfold bestStep
  rw [h]
  cases acc with
  | none => exact ⟨(src, cl), by simp⟩
  | some prev =>
    by_cases hlt : prev.2.length < cl.length
    · exact ⟨(src, cl), by simp [hlt]⟩
    · exact ⟨prev, by simp [hlt]⟩

/-- Once the selection holds an entry it never loses it. -/
theorem foldl_bestStep_some (k : List Nat) :
    ∀ (l : List (List Nat)) (x : List Nat × List Nat),
      ∃ y, l.foldl (bestStep k) (some x) = some y := by
  intro l
  induction l with
  | nil => intro x; exact ⟨x, rfl⟩
  | cons src t ih =>
    intro x
    simp only [List.foldl_cons]
    unfold bestStep
    cases hc : scriptCanon src with
    | none => exact ih x
    | some p =>
      obtain ⟨k', cleaned⟩ := p
      by_cases hk : k' = k
      · subst hk
        by_cases hlt : x.2.length < cleaned.length
        · simp only [if_pos rfl, hlt, if_true]
          exact ih _
        · simp only [if_pos rfl, hlt, if_false]
          exact ih x
      · simp only [if_neg hk]
        exact ih x

/-- The selection's result comes from its accumulator or from a member
candidate admitted at key `k`. -/
theorem foldl_bestStep_src (k : List Nat) :
    ∀ (l : List (List Nat)) (acc : Option (List Nat × List Nat))
      (src cl : List Nat),
      l.foldl (bestStep k) acc = some (src, cl) →
      acc = some (src, cl) ∨
        (src ∈ l ∧ scriptCanon src = some (k, cl)) := by
  intro l
  induction l with
  | nil => intro acc src cl h; exact Or.inl h
  | cons x t ih =>
    intro acc src cl h
    simp only [List.foldl_cons] at h
    rcases ih (bestStep k acc x) src cl h with hacc | hmem
    · unfold bestStep at hacc
      cases hc : scriptCanon x with
      | none => rw [hc] at hacc; exact Or.inl hacc
      | some p =>
        obtain ⟨k', cleaned⟩ := p
        rw [hc] at hacc
        by_cases hk : k' = k
        · subst hk
          cases acc with
          | none =>
            simp only [if_pos rfl] at hacc
            cases hacc
            exact Or.inr ⟨List.mem_cons_self _ _, hc⟩
          | some prev =>
            simp only [if_pos rfl] at hacc
            by_cases hlt : prev.2.length < cleaned.length
            · rw [if_pos hlt] at hacc
              cases hacc
              exact Or.inr ⟨List.mem_cons_self _ _, hc⟩
            · rw [if_neg hlt] at hacc
              exact Or.inl hacc
        · simp only [if_neg hk] at hacc
          exact Or.inl hacc
    · exact Or.inr ⟨List.mem_cons_of_mem _ hmem.1, hmem.2⟩

/-- The selection's result is at least as long as the accumulator's entry
and as every admitted candidate of key `k` in the list. -/
theorem foldl_bestStep_max (k : List Nat) :
    ∀ (l : List (List Nat)) (acc : Option (List Nat × List Nat))
      (src cl : List Nat),
      l.foldl (bestStep k) acc = some (src, cl) →
      (∀ s0 c0, acc = some (s0, c0) → c0.length ≤ cl.length) ∧
      (∀ src' cl', src' ∈ l → scriptCanon src' = some (k, cl') →
        cl'.length ≤ cl.length) := by
  intro l
  induction l with
  | nil =>
    intro acc src cl h
    refine ⟨fun s0 c0 hacc => ?_, fun src' cl' hmem => by simp at hmem⟩
    rw [hacc] at h
    cases h
    exact Nat.le_refl _
  | cons x t ih =>
    intro acc src cl h
    simp only [List.foldl_cons] at h
    obtain ⟨ih1, ih2⟩ := ih (bestStep k acc x) src cl h
    have hstep : ∀ s0 c0, acc = some (s0, c0) →
        ∃ s1 c1, bestStep k acc x = some (s1, c1) ∧ c0.length ≤ c1.length := by
      intro s0 c0 hacc
      subst hacc
      unfold bestStep
      cases hc : scriptCanon x with
      | none => exact ⟨s0, c0, rfl, Nat.le_refl _⟩
      | some p =>
        obtain ⟨k', cleaned⟩ := p
        by_cases hk : k' = k
        · subst hk
          by_cases hlt : c0.length < cleaned.length
          · exact ⟨x, cleaned, by simp [hlt], Nat.le_of_lt hlt⟩
          · exact ⟨s0, c0, by simp [hlt], Nat.le_refl _⟩
        · exact ⟨s0, c0, by simp [hk], Nat.le_refl _⟩
    refine ⟨fun s0 c0 hacc => ?_, fun src' cl' hmem hcanon => ?_⟩
    · obtain ⟨s1, c1, hb, hle⟩ := hstep s0 c0 hacc
      exact Nat.le_trans hle (ih1 s1 c1 hb)
    · rcases List.mem_cons.mp hmem with heq | hmem'
      · subst heq
        have hb : ∃ s1 c1, bestStep k acc src' = some (s1, c1) ∧
            cl'.length ≤ c1.length := by
          unfold bestStep
          rw [hcanon]
          cases acc with
          | none => exact ⟨src', cl', by simp, Nat.le_refl _⟩
          | some prev =>
            by_cases hlt : prev.2.length < cl'.length
            · exact ⟨src', cl', by simp [hlt], Nat.le_refl _⟩
            · exact ⟨prev.1, prev.2, by simp [hlt], Nat.le_of_not_lt hlt⟩
        obtain ⟨s1, c1, hb1, hle⟩ := hb
        exact Nat.le_trans hle (ih1 s1 c1 hb1)
      · exact ih2 src' cl' hmem' hcanon

end RBX

namespace RBX

/-- Keys after an insertion come from the inserted key or the old keys. -/
theorem alInsert_keys_mem {κ ν : Type} [DecidableEq κ] :
    ∀ (m : List (κ × ν)) (k : κ) (v : ν) (x : κ),
      x ∈ (alInsert m k v).map Prod.fst → x = k ∨ x ∈ m.map Prod.fst := by
  intro m
  induction m with
  | nil => intro k v x h; simpa [alInsert] using h
  | cons e t ih =>
    intro k v x h
    obtain ⟨k0, v0⟩ := e
    simp only [alInsert] at h
    by_cases h0 : k0 = k
    · rw [if_pos h0] at h
      subst h0
      simpa using h
    · rw [if_neg h0] at h
      simp only [List.map_cons, List.mem_cons] at h
      rcases h with h | h
      · exact Or.inr (by simp [h])
      · rcases ih k v x h with h' | h'
        · exact Or.inl h'
        · exact Or.inr (by simp [h'])

/-- Insertion keeps the keys distinct. -/
theorem alInsert_keys_nodup {κ ν : Type} [DecidableEq κ] :
    ∀ (m : List (κ × ν)) (k : κ) (v : ν),
      (m.map Prod.fst).Nodup → ((alInsert m k v).map Prod.fst).Nodup := by
  intro m
  induction m with
  | nil => intro k v _; simp [alInsert]
  | cons e t ih =>
    intro k v hnd
    obtain ⟨k0, v0⟩ := e
    simp only [List.map_cons, List.nodup_cons] at hnd
    simp only [alInsert]
    by_cases h0 : k0 = k
    · rw [if_pos h0]
      subst h0
      simp only [List.map_cons, List.nodup_cons]
      exact hnd
    · rw [if_neg h0]
      simp only [List.map_cons, List.nodup_cons]
      refine ⟨fun hmem => ?_, ih k v hnd.2⟩
      rcases alInsert_keys_mem t k v k0 hmem with h' | h'
      · exact h0 h'
      · exact hnd.1 h'

/-- One `norm_map` step keeps the keys distinct. -/
theorem normStep_keys_nodup (m : List (List Nat × (List Nat × List Nat)))
    (src : List Nat) (hnd : (m.map Prod.fst).Nodup) :
    ((normStep m src).map Prod.fst).Nodup := by
  unfold normStep
  cases scriptCanon src with
  | none => exact hnd
  | some p =>
    obtain ⟨norm, cleaned⟩ := p
    dsimp only
    cases alGet m norm with
    | none => exact alInsert_keys_nodup m norm (src, cleaned) hnd
    | some prev =>
      dsimp only
      by_cases hlt : prev.2.length < cleaned.length
      · rw [if_pos hlt]
        exact alInsert_keys_nodup m norm (src, cleaned) hnd
      · rw [if_neg hlt]
        exact hnd

/-- The finished `norm_map` has one entry per key. -/
theorem buildNormMap_keys_nodup (combined : List (List Nat)) :
    ((buildNormMap combined).map Prod.fst).Nodup := by
  have h : ∀ (l : List (List Nat)) (m : List (List Nat × (List Nat × List Nat))),
      (m.map Prod.fst).Nodup → ((l.foldl normStep m).map Prod.fst).Nodup := by
    intro l
    induction l with
    | nil => intro m hm; exact hm
    | cons src t ih =>
      intro m hm
      exact ih (normStep m src) (normStep_keys_nodup m src hm)
  exact h combined [] (by simp)

/-- With distinct keys, a stored key is counted exactly once. -/
theorem countP_key_eq_one {κ ν : Type} [DecidableEq κ] :
    ∀ (m : List (κ × ν)) (k : κ) (v : ν),
      (m.map Prod.fst).Nodup → alGet m k = some v →
      m.countP (fun e => e.1 = k) = 1 := by
  intro m
  induction m with
  | nil => intro k v _ h; simp [alGet] at h
  | cons e t ih =>
    intro k v hnd hget
    obtain ⟨k0, v0⟩ := e
    simp only [List.map_cons, List.nodup_cons] at hnd
    simp only [alGet] at hget
    rw [List.countP_cons]
    by_cases h0 : k0 = k
    · have hzero : t.countP (fun e => e.1 = k) = 0 := by
        rw [List.countP_eq_zero]
        intro a ha
        simp only [decide_eq_true_eq]
        intro hak
        exact hnd.1 (by simpa [hak, ← h0] using List.mem_map_of_mem Prod.fst ha)
      simp [hzero, h0]
    · rw [if_neg h0] at hget
      simp [ih k v hnd.2 hget, h0]

/-- Stable descending insertion permutes the extended list. -/
theorem insertDesc_perm (x : List Nat × (List Nat × List Nat)) :
    ∀ l, (insertDesc x l).Perm (x :: l) := by
  intro l
  induction l with
  | nil => exact List.Perm.refl _
  | cons y t ih =>
    simp only [insertDesc]
    by_cases hlt : y.2.2.length < x.2.2.length
    · rw [if_pos hlt]
    · rw [if_neg hlt]
      exact (ih.cons y).trans (List.Perm.swap x y t)

/-- The output sorting is a permutation of the table. -/
theorem sortDesc_perm : ∀ l, (sortDesc l).Perm l := by
  intro l
  induction l with
  | nil => exact List.Perm.refl _
  | cons x t ih =>
    exact (insertDesc_perm x (sortDesc t)).trans (ih.cons x)

/-- C9: for any two candidates of the script path whose cleaned,
whitespace-collapsed canonical forms coincide (key `k`), the
canonicalizer's table holds exactly one entry for `k` — so exactly one
output with that canonical form is emitted (the sorted output list counts
it once) — and the retained entry is the selection rule `bestFor`: the
candidate with the longest cleaned body, where `bestStep` replaces only
on a STRICTLY longer body, so ties retain the earlier-inserted
candidate.  The retained cleaned body is at least as long as that of
every candidate with canonical form `k`. -/
theorem c9_script_dedup_canonical (combined : List (List Nat))
    (S1 S2 cl1 cl2 k : List Nat)
    (h1 : S1 ∈ combined) (h2 : S2 ∈ combined)
    (hc1 : scriptCanon S1 = some (k, cl1))
    (hc2 : scriptCanon S2 = some (k, cl2)) :
    ∃ src cl,
      alGet (buildNormMap combined) k = some (src, cl) ∧
      bestFor k combined = some (src, cl) ∧
      (sortDesc (buildNormMap combined)).countP (fun kv => kv.1 = k) = 1 ∧
      src ∈ combined ∧ scriptCanon src = some (k, cl) ∧
      ∀ src' cl', src' ∈ combined → scriptCanon src' = some (k, cl') →
        cl'.length ≤ cl.length := by
  obtain ⟨l1, l2, rfl⟩ := List.append_of_mem h1
  have hsome : ∃ y, bestFor k (l1 ++ S1 :: l2) = some y := by
    unfold bestFor
    rw [List.foldl_append]
    simp only [List.foldl_cons]
    obtain ⟨y1, hy1⟩ :=
      bestStep_some_of_canon k (List.foldl (bestStep k) none l1) S1 cl1 hc1
    rw [hy1]
    exact foldl_bestStep_some k l2 y1
  obtain ⟨⟨src, cl⟩, hbest⟩ := hsome
  have hget : alGet (buildNormMap (l1 ++ S1 :: l2)) k = some (src, cl) := by
    rw [alGet_buildNormMap]
    exact hbest
  have hnodup := buildNormMap_keys_nodup (l1 ++ S1 :: l2)
  have hcount1 : (buildNormMap (l1 ++ S1 :: l2)).countP
      (fun kv => kv.1 = k) = 1 :=
    countP_key_eq_one _ k (src, cl) hnodup hget
  have hcount : (sortDesc (buildNormMap (l1 ++ S1 :: l2))).countP
      (fun kv => kv.1 = k) = 1 := by
    rw [(sortDesc_perm (buildNormMap (l1 ++ S1 :: l2))).countP_eq]
    exact hcount1
  rcases foldl_bestStep_src k (l1 ++ S1 :: l2) none src cl hbest with habs | hmem
  · simp at habs
  obtain ⟨-, hmax2⟩ := foldl_bestStep_max k (l1 ++ S1 :: l2) none src cl hbest
  exact ⟨src, cl, hget, hbest, hcount, hmem.1, hmem.2, hmax2⟩

/-- First candidate for the C9 witness: two lines, already stripped. -/
def c9s1 : List Nat := strCp "local x = 1\nreturn x"

/-- Second candidate: one line with padded interior spacing; same
canonical form as `c9s1` but a longer cleaned body. -/
def c9s2 : List Nat := strCp "local  x  =  1  return  x"

/-- Witness for C9 at two concrete candidates sharing the canonical form
`"local x = 1 return x"`: exactly one output is emitted for it. -/
theorem c9_script_dedup_canonical_witness :
    ∃ src cl,
      alGet (buildNormMap [c9s1, c9s2]) (strCp "local x = 1 return x") =
        some (src, cl) ∧
      bestFor (strCp "local x = 1 return x") [c9s1, c9s2] = some (src, cl) ∧
      (sortDesc (buildNormMap [c9s1, c9s2])).countP
        (fun kv => kv.1 = strCp "local x = 1 return x") = 1 ∧
      src ∈ [c9s1, c9s2] ∧
      scriptCanon src = some (strCp "local x = 1 return x", cl) ∧
      ∀ src' cl', src' ∈ [c9s1, c9s2] →
        scriptCanon src' = some (strCp "local x = 1 return x", cl') →
        cl'.length ≤ cl.length :=
  c9_script_dedup_canonical [c9s1, c9s2] c9s1 c9s2 c9s1 c9s2
    (strCp "local x = 1 return x") (by simp) (by simp) (by rfl) (by rfl)

end RBX
